import Mathlib

/-!
Verification development for the LevelsOfMusicality repository.

The repository produces graded-noise variants of musical stimuli.  Its five
Python source files contain a symbolic MIDI randomizer (mus_const_pert.py,
musical_pert_comb.py, musical_pert.py), a spectral / temporal audio
perturbation module (audio_pert.py) and an SNR-calibrated noise injector
(noise_adder.py).  This file gives a shallow embedding of those functions:

* real (Python float) arithmetic is modelled by exact rationals;
* the numpy random generator is modelled by an explicit stream of naturals
  (structure RState); every library draw consumes values from the stream and
  the new stream state is threaded through all definitions;
* numpy calls that can raise (np.random.choice with replace=False) return
  Except values;
* library signal transforms with no visible source (librosa stft / istft) are
  taken as function parameters of the embedded definitions.
-/

namespace LoM

/-- Random generator state: an infinite stream of naturals together with the
position of the next unread element.  Every random draw of the Python source
is a function of this stream. -/
structure RState where
  stream : Nat → Nat
  pos : Nat

/-- Read one natural from the stream. -/
def rnext (r : RState) : Nat × RState :=
  (r.stream r.pos, ⟨r.stream, r.pos + 1⟩)

/-- Map a raw stream natural to a rational in the unit interval; models the
value returned by a uniform draw on [0, 1). -/
def unitQ (n : Nat) : ℚ := ((n % 1001 : Nat) : ℚ) / 1000

/-- Model of np.random.rand(): one uniform draw in [0, 1). -/
def drawUnit (r : RState) : ℚ × RState :=
  let (n, r1) := rnext r
  (unitQ n, r1)

/-- Model of np.random.uniform(a, b): a + (b - a) * u with u in [0, 1). -/
def drawUniform (a b : ℚ) (r : RState) : ℚ × RState :=
  let (u, r1) := drawUnit r
  (a + (b - a) * u, r1)

/-- Model of a standard normal variate: an arbitrary stream-determined
rational (the distribution itself is not modelled, only that the value is a
deterministic function of the generator state). -/
def drawStd (r : RState) : ℚ × RState :=
  let (n, r1) := rnext r
  ((((n : ℤ) - 1 : ℤ) : ℚ), r1)

/-- Model of np.random.normal(loc, scale) = loc + scale * z with z standard
normal, as numpy computes it. -/
def drawNormal (loc scale : ℚ) (r : RState) : ℚ × RState :=
  let (z, r1) := drawStd r
  (loc + scale * z, r1)

/-- Model of np.random.randint(lo, hi): a uniform integer in [lo, hi - 1]. -/
def drawRandInt (lo hi : ℤ) (r : RState) : ℤ × RState :=
  let (n, r1) := rnext r
  (lo + (n : ℤ) % (hi - lo), r1)

/-- A list of n stream-determined draws; models a generated noise sequence of
length n (colorednoise.powerlaw_psd_gaussian produces such a sequence). -/
def drawList : Nat → RState → List ℚ × RState
  | 0, r => ([], r)
  | n + 1, r =>
      ((drawStd r).1 :: (drawList n (drawStd r).2).1, (drawList n (drawStd r).2).2)

/-- Python int() applied to a float: truncation toward zero. -/
def pyInt (q : ℚ) : ℤ := q.num.tdiv q.den

/-- Python round() on a float: round half to even. -/
def pyRound (q : ℚ) : ℤ :=
  let n := ⌊q⌋
  let f := q - n
  if f < 1 / 2 then n
  else if 1 / 2 < f then n + 1
  else if n % 2 = 0 then n else n + 1

/-- Newton iteration for the integer square root, structural on an explicit
fuel argument. -/
def isqrtIter : Nat → Nat → Nat → Nat
  | 0, _, guess => guess
  | fuel + 1, n, guess =>
      let next := (guess + n / guess) / 2
      if next < guess then isqrtIter fuel n next else guess

/-- Integer square root (floor). -/
def isqrt (n : Nat) : Nat := if n ≤ 1 then n else isqrtIter n n (n / 2)

/-- Square root on rationals.  The value is exact whenever the argument is a
perfect square of a rational (numerator and denominator both perfect
squares); theorems that depend on the square root record the exactness they
need as an explicit hypothesis. -/
def qSqrt (q : ℚ) : ℚ :=
  if q ≤ 0 then 0 else (isqrt q.num.toNat : ℚ) / (isqrt q.den : ℚ)

/-- Model of 10 ** x for a rational exponent: exact at integer exponents,
which are the only exponents the analysed call sites use (for an integer
exponent z the value is 10 ^ max(z, 0) / 10 ^ max(-z, 0), which equals the
usual signed power). -/
def tenPowQ (x : ℚ) : ℚ :=
  if x.den = 1 then ((10 : ℚ) ^ x.num.toNat) / ((10 : ℚ) ^ (-x.num).toNat) else 0

/-- Model of np.mean. -/
def npMean (xs : List ℚ) : ℚ := xs.sum / xs.length

/-- Population variance as np.std squares it (ddof = 0). -/
def npVar (xs : List ℚ) : ℚ := npMean (xs.map fun x => (x - npMean xs) ^ 2)

/-- Model of np.std: population standard deviation. -/
def npStd (xs : List ℚ) : ℚ := qSqrt (npVar xs)

/-- Minimum of a list of integers (np.min / built-in min on a nonempty list;
0 on the empty list, which no analysed call site reaches). -/
def listMinZ : List ℤ → ℤ
  | [] => 0
  | x :: xs => xs.foldl min x

/-- Maximum of a list of integers. -/
def listMaxZ : List ℤ → ℤ
  | [] => 0
  | x :: xs => xs.foldl max x

/-- Peak absolute amplitude np.max(np.abs(xs)) (0 on the empty list). -/
def peakAbs (xs : List ℚ) : ℚ := (xs.map abs).foldr max 0

/-- Normalization used by the audio_pert.py transforms:
max_val = np.max(np.abs(x)); if max_val > 0: x = x / max_val. -/
def normalizeIfPos (xs : List ℚ) : List ℚ :=
  if 0 < peakAbs xs then xs.map (· / peakAbs xs) else xs

/-- One pick of np.random.choice(pool, k, replace=False): repeatedly draw a
position in the remaining pool and remove the chosen element. -/
def pickLoop : Nat → List Nat → RState → List Nat × RState
  | 0, _, r => ([], r)
  | k + 1, pool, r =>
      match pool[(rnext r).1 % pool.length]? with
      | none => ([], (rnext r).2)
      | some x =>
          (x :: (pickLoop k (pool.erase x) (rnext r).2).1,
           (pickLoop k (pool.erase x) (rnext r).2).2)

/-- Model of np.random.choice(n, k, replace=False): raises ValueError when
the requested sample size is negative or exceeds the population. -/
def npChoice (n : Nat) (k : ℤ) (r : RState) : Except String (List Nat × RState) :=
  if k < 0 ∨ (n : ℤ) < k then Except.error "ValueError"
  else Except.ok (pickLoop k.toNat (List.range n) r)

/-- A note of the symbolic score: pretty_midi.Note with fields pitch, start
and end (the end field is called stop here because end is a Lean keyword). -/
structure Note where
  pitch : ℤ
  start : ℚ
  stop : ℚ
  deriving DecidableEq

/-- An instrument track: the notes collection of a pretty_midi.Instrument. -/
structure Instrument where
  notes : List Note
  deriving DecidableEq

/-- A parsed score: the instruments collection of a pretty_midi.PrettyMIDI
object. -/
structure PrettyMIDI where
  instruments : List Instrument
  deriving DecidableEq

/-- get_pitch_range of mus_const_pert.py: min and max pitch of the track with
a symmetric padding, clamped to the piano range [21, 108]; the default piano
range when the track has no notes. -/
def get_pitch_range (instrument : Instrument) (padding : ℤ) : ℤ × ℤ :=
  if instrument.notes.isEmpty then (21, 108)
  else
    let pitches := instrument.notes.map Note.pitch
    (max 21 (listMinZ pitches - padding), min 108 (listMaxZ pitches + padding))

namespace MusConstPert

/-- Body of the pitch loop of randomize_midi (mus_const_pert.py lines 51-65):
perturb the note at one drawn index.  With preserve_range the new pitch is
drawn from a normal distribution centred at the original pitch with scale
pitch_std * noise_level, rounded, and clamped as
max(min_pitch, min(max_pitch, new_pitch)); otherwise it is
np.random.randint(min_pitch, max_pitch + 1). -/
def randomizePitchAt (minPitch maxPitch : ℤ) (pitchStd L : ℚ) (preserve : Bool)
    (acc : List Note × RState) (idx : Nat) : List Note × RState :=
  let (notes, r) := acc
  match notes[idx]? with
  | none => (notes, r)
  | some note =>
      if preserve then
        let (v, r1) := drawNormal (note.pitch : ℚ) (pitchStd * L) r
        let p := max minPitch (min maxPitch (pyRound v))
        (notes.set idx ⟨p, note.start, note.stop⟩, r1)
      else
        let (p, r1) := drawRandInt minPitch (maxPitch + 1) r
        (notes.set idx ⟨p, note.start, note.stop⟩, r1)

/-- Body of the start-time loop of randomize_midi (lines 69-77): the start is
shifted by a uniform draw in [-max_shift, max_shift], floored at 0, and the
end is moved so the duration is preserved. -/
def timingAt (maxShift : ℚ) (acc : List Note × RState) (idx : Nat) :
    List Note × RState :=
  let (notes, r) := acc
  match notes[idx]? with
  | none => (notes, r)
  | some note =>
      let (shift, r1) := drawUniform (-maxShift) maxShift r
      let newStart := max 0 (note.start + shift)
      let dur := note.stop - note.start
      (notes.set idx ⟨note.pitch, newStart, newStart + dur⟩, r1)

/-- Body of the duration loop of randomize_midi (lines 81-86): the duration
is changed by a uniform draw in [-max_change, max_change] and floored at
0.1 s; the end becomes start + new_duration. -/
def durationAt (maxChange : ℚ) (acc : List Note × RState) (idx : Nat) :
    List Note × RState :=
  let (notes, r) := acc
  match notes[idx]? with
  | none => (notes, r)
  | some note =>
      let (change, r1) := drawUniform (-maxChange) maxChange r
      let newDur := max (1 / 10) (note.stop - note.start + change)
      (notes.set idx ⟨note.pitch, note.start, note.start + newDur⟩, r1)

/-- The three index draws of randomize_midi (lines 38-43):
num_notes_to_randomize = int(noise_level * num_notes) and three
np.random.choice(num_notes, k, replace=False) calls. -/
def selectIndices (n : Nat) (L : ℚ) (r : RState) :
    Except String ((List Nat × List Nat × List Nat) × RState) :=
  match npChoice n (pyInt (L * n)) r with
  | Except.error e => Except.error e
  | Except.ok p1 =>
      match npChoice n (pyInt (L * n)) p1.2 with
      | Except.error e => Except.error e
      | Except.ok p2 =>
          match npChoice n (pyInt (L * n)) p2.2 with
          | Except.error e => Except.error e
          | Except.ok p3 => Except.ok ((p1.1, p2.1, p3.1), p3.2)

/-- Per-instrument body of randomize_midi of mus_const_pert.py: skip empty
tracks, compute the pitch range, draw the three index subsets, then run the
pitch, timing and duration loops (max shift and max change both scale with
the noise level: 0.5 * noise_level). -/
def randomizeInstrument (instrument : Instrument) (L : ℚ) (preserve : Bool)
    (r : RState) : Except String (Instrument × RState) :=
  if instrument.notes.length = 0 then Except.ok (instrument, r)
  else
    match selectIndices instrument.notes.length L r with
    | Except.error e => Except.error e
    | Except.ok sel =>
        let pr := if preserve then get_pitch_range instrument 12 else (21, 108)
        let pitchStd := npStd (instrument.notes.map fun nt => (nt.pitch : ℚ))
        let s1 := sel.1.1.foldl (randomizePitchAt pr.1 pr.2 pitchStd L preserve)
          (instrument.notes, sel.2)
        let s2 := sel.1.2.1.foldl (timingAt (1 / 2 * L)) s1
        let s3 := sel.1.2.2.foldl (durationAt (1 / 2 * L)) s2
        Except.ok (⟨s3.1⟩, s3.2)

/-- Fold of randomize_midi over the instruments of the score, threading the
generator state and propagating the first library error. -/
def randomizeInstruments (insts : List Instrument) (L : ℚ) (preserve : Bool)
    (r : RState) : Except String (List Instrument × RState) :=
  match insts with
  | [] => Except.ok ([], r)
  | i :: rest =>
      match randomizeInstrument i L preserve r with
      | Except.error e => Except.error e
      | Except.ok p =>
          match randomizeInstruments rest L preserve p.2 with
          | Except.error e => Except.error e
          | Except.ok q => Except.ok (p.1 :: q.1, q.2)

/-- randomize_midi of mus_const_pert.py.  The source mutates the notes of the
pm object it is given and returns that same object; the embedding returns the
final value of those notes. -/
def randomize_midi (pm : PrettyMIDI) (L : ℚ) (preserve : Bool) (r : RState) :
    Except String (PrettyMIDI × RState) :=
  match randomizeInstruments pm.instruments L preserve r with
  | Except.error e => Except.error e
  | Except.ok p => Except.ok (⟨p.1⟩, p.2)

/-- copy.deepcopy on a score: produces an equal value held by a fresh,
unaliased object. -/
def deepcopy (pm : PrettyMIDI) : PrettyMIDI := pm

/-- Per-(file, noise-level) body of process_midi_files of mus_const_pert.py
(lines 125-129): noise level 0 reuses pm_original and consumes no
randomness; otherwise randomize_midi runs on a deep copy. -/
def process_level (pm : PrettyMIDI) (L : ℚ) (r : RState) :
    Except String (PrettyMIDI × RState) :=
  if L = 0 then Except.ok (pm, r)
  else randomize_midi (deepcopy pm) L true r

end MusConstPert

namespace MusicalPertComb

/-- Per-instrument body of randomize_midi of musical_pert_comb.py: like the
mus_const_pert.py version but pitch is always np.random.randint(21, 109) and
the shift and duration windows are fixed at 0.5 s (no noise-level scaling).
The loop bodies are the shared helpers with preserve = false, pitch range
(21, 108) and window 1/2. -/
def randomizeInstrument (instrument : Instrument) (L : ℚ) (r : RState) :
    Except String (Instrument × RState) :=
  if instrument.notes.length = 0 then Except.ok (instrument, r)
  else
    match MusConstPert.selectIndices instrument.notes.length L r with
    | Except.error e => Except.error e
    | Except.ok sel =>
        let s1 := sel.1.1.foldl (MusConstPert.randomizePitchAt 21 108 0 L false)
          (instrument.notes, sel.2)
        let s2 := sel.1.2.1.foldl (MusConstPert.timingAt (1 / 2)) s1
        let s3 := sel.1.2.2.foldl (MusConstPert.durationAt (1 / 2)) s2
        Except.ok (⟨s3.1⟩, s3.2)

/-- Fold of randomize_midi of musical_pert_comb.py over the instruments. -/
def randomizeInstruments (insts : List Instrument) (L : ℚ) (r : RState) :
    Except String (List Instrument × RState) :=
  match insts with
  | [] => Except.ok ([], r)
  | i :: rest =>
      match randomizeInstrument i L r with
      | Except.error e => Except.error e
      | Except.ok p =>
          match randomizeInstruments rest L p.2 with
          | Except.error e => Except.error e
          | Except.ok q => Except.ok (p.1 :: q.1, q.2)

/-- randomize_midi of musical_pert_comb.py. -/
def randomize_midi (pm : PrettyMIDI) (L : ℚ) (r : RState) :
    Except String (PrettyMIDI × RState) :=
  match randomizeInstruments pm.instruments L r with
  | Except.error e => Except.error e
  | Except.ok p => Except.ok (⟨p.1⟩, p.2)

/-- State of the caller's pm object after randomize_midi(pm, ...) returns.
The source assigns into instrument.notes[idx] of the very object it was
given (no copy is made inside randomize_midi), so on success the caller's
object holds the returned score.  Only the success path is used below; the
state after a library exception (a partially mutated object) is not
modelled. -/
def callerScoreAfter (pm : PrettyMIDI) (L : ℚ) (r : RState) : PrettyMIDI :=
  match randomize_midi pm L r with
  | Except.ok (pm1, _) => pm1
  | Except.error _ => pm

/-- Per-(file, noise-level) body of process_midi_files of
musical_pert_comb.py (lines 93-100).  The first component is the state of
the caller's pm_original after the iteration: randomize_midi mutates only
the deep copy passed to it, so pm_original keeps its value. -/
def process_level (pm : PrettyMIDI) (L : ℚ) (r : RState) :
    PrettyMIDI × Except String (PrettyMIDI × RState) :=
  if L = 0 then (pm, Except.ok (pm, r))
  else (pm, randomize_midi (MusConstPert.deepcopy pm) L r)

end MusicalPertComb

namespace MusicalPert

/-- Per-instrument body of randomize_midi_notes of musical_pert.py: one index
subset of size int(noise_level * num_notes), and each selected note gets the
pitch np.random.randint(21, 109).  There is no empty-track skip in this
variant (np.random.choice(0, 0) succeeds). -/
def randomizeInstrumentNotes (instrument : Instrument) (L : ℚ) (r : RState) :
    Except String (Instrument × RState) :=
  match npChoice instrument.notes.length (pyInt (L * instrument.notes.length)) r with
  | Except.error e => Except.error e
  | Except.ok p =>
      let s1 := p.1.foldl (MusConstPert.randomizePitchAt 21 108 0 L false)
        (instrument.notes, p.2)
      Except.ok (⟨s1.1⟩, s1.2)

/-- Fold of randomize_midi_notes over the instruments. -/
def randomizeInstrumentsNotes (insts : List Instrument) (L : ℚ) (r : RState) :
    Except String (List Instrument × RState) :=
  match insts with
  | [] => Except.ok ([], r)
  | i :: rest =>
      match randomizeInstrumentNotes i L r with
      | Except.error e => Except.error e
      | Except.ok p =>
          match randomizeInstrumentsNotes rest L p.2 with
          | Except.error e => Except.error e
          | Except.ok q => Except.ok (p.1 :: q.1, q.2)

/-- randomize_midi_notes of musical_pert.py. -/
def randomize_midi_notes (pm : PrettyMIDI) (L : ℚ) (r : RState) :
    Except String (PrettyMIDI × RState) :=
  match randomizeInstrumentsNotes pm.instruments L r with
  | Except.error e => Except.error e
  | Except.ok p => Except.ok (⟨p.1⟩, p.2)

end MusicalPert

namespace AudioPert

/-- frame_length_samples of add_time_domain_jitter:
int(sr * frame_length_ms / 1000) with frame_length_ms = 10. -/
def frameLen (sr : Nat) : Nat := (pyInt ((sr : ℚ) * 10 / 1000)).toNat

/-- max_shift_samples of add_time_domain_jitter:
int(sr * max_shift_ms / 1000) with max_shift_ms = 10 * noise_level. -/
def maxShiftSamples (sr : Nat) (L : ℚ) : ℤ := pyInt ((sr : ℚ) * (10 * L) / 1000)

/-- output_signal[s : s + len(frame)] += frame, elementwise on the buffer. -/
def overlayAdd (out : List ℚ) (s : Nat) (frame : List ℚ) : List ℚ :=
  out.enum.map fun p =>
    if s ≤ p.1 ∧ p.1 < s + frame.length then p.2 + frame.getD (p.1 - s) 0 else p.2

/-- Clipped placement of a shifted frame (add_time_domain_jitter lines
99-111): a negative shifted start trims the head of the frame and clamps the
start to 0; a shifted end past the buffer trims the tail of the frame; the
surviving samples are overlap-added in place.  This models the successful
write path only: the source's final statement is a numpy in-place slice add,
which raises a broadcast ValueError when the clipped frame's length matches
neither the target slice's length nor 1; placeFrameOk below states exactly
when the write succeeds, and when the two lengths are equal the value
computed here agrees with the source sample for sample.  The theorems about
noise levels in [0, 1] prove that every drawn shift keeps the two lengths
equal, so no error path is reachable there. -/
def placeFrame (out : List ℚ) (pos : ℤ) (frame : List ℚ) : List ℚ :=
  let sf := if pos < 0 then ((0 : Nat), frame.drop (-pos).toNat) else (pos.toNat, frame)
  let f2 := if out.length < sf.1 + sf.2.length then sf.2.take (out.length - sf.1) else sf.2
  overlayAdd out sf.1 f2

/-- Length of the python slice a[:k] of a list of length l; a negative k
counts from the end. -/
def pyTakeLen (l : Nat) (k : ℤ) : Nat :=
  if k < 0 then ((l : ℤ) + k).toNat else min k.toNat l

/-- Length of the python slice a[ss:se] of a buffer of length len; se may be
negative (counting from the end) or past the end. -/
def pySliceLen (len ss : Nat) (se : ℤ) : Nat :=
  ((if se < 0 then max 0 ((len : ℤ) + se) else min se (len : ℤ))
    - ((min ss len : Nat) : ℤ)).toNat

/-- Length of the frame remaining after the two clip branches of
add_time_domain_jitter (lines 103-108), for a frame of length fl shifted to
position pos in a buffer of length len.  The head trim uses the shifted
start, the tail-trim condition uses the shifted end pos + fl computed before
the head trim (as in the source), and the tail trim slices up to
len - shifted_start with the already-clamped start. -/
def writeFrameLen (len : Nat) (pos : ℤ) (fl : Nat) : Nat :=
  if (len : ℤ) < pos + fl then
    pyTakeLen (if pos < 0 then ((fl : ℤ) + pos).toNat else fl)
      ((len : ℤ) - (if pos < 0 then (0 : Nat) else pos.toNat))
  else (if pos < 0 then ((fl : ℤ) + pos).toNat else fl)

/-- Length of the target slice output_signal[shifted_start:shifted_end] of
the write at line 111: the start is clamped to 0 when negative, the end is
clamped to len when past it but may remain negative, in which case python
counts it from the end of the buffer. -/
def writeSliceLen (len : Nat) (pos : ℤ) (fl : Nat) : Nat :=
  pySliceLen len (if pos < 0 then (0 : Nat) else pos.toNat)
    (if (len : ℤ) < pos + fl then (len : ℤ) else pos + fl)

/-- Success condition of one frame write of add_time_domain_jitter: the
numpy add output[ss:se] += frame succeeds exactly when the clipped frame's
length equals the slice's length or is 1 (size-1 broadcast); otherwise the
source raises a broadcast ValueError.  This is reachable when
maxShiftSamples exceeds the frame length, i.e. for noise levels above 1. -/
def placeFrameOk (len : Nat) (pos : ℤ) (fl : Nat) : Prop :=
  writeFrameLen len pos fl = writeSliceLen len pos fl ∨ writeFrameLen len pos fl = 1

instance (len : Nat) (pos : ℤ) (fl : Nat) : Decidable (placeFrameOk len pos fl) :=
  inferInstanceAs (Decidable (_ ∨ _))

/-- One iteration of the frame loop of add_time_domain_jitter: take the i-th
full frame of the input, draw a shift uniformly in
[-max_shift_samples, max_shift_samples], and place the frame at the shifted
position. -/
def jitterStep (signal : List ℚ) (F : Nat) (m : ℤ) (acc : List ℚ × RState)
    (i : Nat) : List ℚ × RState :=
  let (out, r) := acc
  let frame := (signal.drop (i * F)).take F
  let (shift, r1) := drawRandInt (-m) (m + 1) r
  (placeFrame out ((i * F : Nat) + shift) frame, r1)

/-- The frame loop of add_time_domain_jitter before the final normalization:
num_frames = len(signal) // frame_length_samples full frames are placed into
a zero buffer of the same length as the input. -/
def jitterCore (signal : List ℚ) (L : ℚ) (sr : Nat) (r : RState) :
    List ℚ × RState :=
  (List.range (signal.length / frameLen sr)).foldl
    (jitterStep signal (frameLen sr) (maxShiftSamples sr L))
    (List.replicate signal.length 0, r)

/-- add_time_domain_jitter of audio_pert.py: the frame loop followed by the
peak normalization guarded by max_val > 0. -/
def add_time_domain_jitter (signal : List ℚ) (L : ℚ) (sr : Nat) (r : RState) :
    List ℚ × RState :=
  (normalizeIfPos (jitterCore signal L sr r).1, (jitterCore signal L sr r).2)

/-- Rational stand-in for np.pi; it is only the width of the random phase
draws, and no analysed claim depends on its value. -/
def piQ : ℚ := 355 / 113

/-- Per-bin blending of add_noise_in_frequency_domain (lines 30-35): each bin
gets a random magnitude np.random.rand() * max_magnitude and a random phase
uniform in [-pi, pi], and original and random fields are interpolated
linearly by the noise level. -/
def blendBins (maxMag L : ℚ) : List (ℚ × ℚ) → RState → List (ℚ × ℚ) × RState
  | [], r => ([], r)
  | mp :: rest, r =>
      let (u, r1) := drawUnit r
      let (rp, r2) := drawUniform (-piQ) piQ r1
      let nm := (1 - L) * mp.1 + L * u * maxMag
      let ph := (1 - L) * mp.2 + L * rp
      let (rest1, r3) := blendBins maxMag L rest r2
      ((nm, ph) :: rest1, r3)

/-- Spectral core of add_noise_in_frequency_domain before normalization.
The librosa forward and inverse transforms have no source in the repository
and enter as function parameters: stftMP maps a signal to its list of
(magnitude, phase) bins, istftMP reconstructs a signal of the requested
length from blended bins. -/
def spectralCore (stftMP : List ℚ → List (ℚ × ℚ))
    (istftMP : List (ℚ × ℚ) → Nat → List ℚ) (signal : List ℚ) (L : ℚ)
    (r : RState) : List ℚ × RState :=
  (istftMP (blendBins (((stftMP signal).map fun p => p.1).foldr max 0) L
      (stftMP signal) r).1 signal.length,
   (blendBins (((stftMP signal).map fun p => p.1).foldr max 0) L
      (stftMP signal) r).2)

/-- add_noise_in_frequency_domain of audio_pert.py: the spectral core
followed by the peak normalization guarded by max_val > 0. -/
def add_noise_in_frequency_domain (stftMP : List ℚ → List (ℚ × ℚ))
    (istftMP : List (ℚ × ℚ) → Nat → List ℚ) (signal : List ℚ) (L : ℚ)
    (r : RState) : List ℚ × RState :=
  (normalizeIfPos (spectralCore stftMP istftMP signal L r).1,
   (spectralCore stftMP istftMP signal L r).2)

/-- Unguarded peak division y / np.max(np.abs(y)) as written at lines 143 and
158 of audio_pert.py (division by zero is the model's total division). -/
def prenormalize (y : List ℚ) : List ℚ := y.map (· / peakAbs y)

/-- Per-(file, noise-level) body of process_midi_files of audio_pert.py
(lines 142-158): the synthesized signal is peak-divided once per file, noise
level 0 bypasses the transform and consumes no randomness, any other level
applies add_time_domain_jitter, and the result is peak-divided again. -/
def process_level (y : List ℚ) (L : ℚ) (sr : Nat) (r : RState) :
    List ℚ × RState :=
  (prenormalize (if L = 0 then prenormalize y
    else (add_time_domain_jitter (prenormalize y) L sr r).1),
   if L = 0 then r else (add_time_domain_jitter (prenormalize y) L sr r).2)

end AudioPert

namespace NoiseAdder

/-- calculate_power of noise_adder.py: np.mean(signal ** 2). -/
def calculate_power (signal : List ℚ) : ℚ := npMean (signal.map fun x => x ^ 2)

/-- The pink-noise sequence colorednoise.powerlaw_psd_gaussian(1.0, n): a
stream-determined sequence of n rationals. -/
def pinkNoise (n : Nat) (r : RState) : List ℚ × RState := drawList n r

/-- desired_noise_power of add_noise_with_snr:
signal_power / (10 ** (desired_snr_db / 10)). -/
def desiredNoisePower (signal : List ℚ) (snr : ℚ) : ℚ :=
  calculate_power signal / tenPowQ (snr / 10)

/-- scaling_factor of add_noise_with_snr:
np.sqrt(desired_noise_power / current_noise_power). -/
def scalingFactor (signal noise : List ℚ) (snr : ℚ) : ℚ :=
  qSqrt (desiredNoisePower signal snr / calculate_power noise)

/-- Normalization used by add_noise_with_snr:
max_val = max(abs(noisy_signal)); if max_val > 1: noisy_signal / max_val. -/
def normalizeIfOver1 (xs : List ℚ) : List ℚ :=
  if 1 < peakAbs xs then xs.map (· / peakAbs xs) else xs

/-- scaled_noise = noise * scaling_factor of add_noise_with_snr. -/
def scaledNoise (signal noise : List ℚ) (snr : ℚ) : List ℚ :=
  noise.map (· * scalingFactor signal noise snr)

/-- The sample-wise sum noisy_signal = signal + scaled_noise. -/
def noisySum (signal noise : List ℚ) (snr : ℚ) : List ℚ :=
  List.zipWith (· + ·) signal (scaledNoise signal noise snr)

/-- add_noise_with_snr of noise_adder.py: generate pink noise of the
signal's length, scale it toward the desired power, add it sample-wise, and
rescale the sum by its peak only when that peak exceeds 1. -/
def add_noise_with_snr (signal : List ℚ) (snr : ℚ) (r : RState) :
    List ℚ × RState :=
  (normalizeIfOver1 (noisySum signal (pinkNoise signal.length r).1 snr),
   (pinkNoise signal.length r).2)

/-- Per-(file, noise-level) body of process_midi_files of noise_adder.py
(lines 76-82): the noise percentage maps linearly to a target SNR
(0 percent gives 40 dB, 100 percent gives -20 dB) and add_noise_with_snr is
called unconditionally; there is no bypass at 0. -/
def process_level (y : List ℚ) (noisePercent : ℚ) (r : RState) :
    List ℚ × RState :=
  add_noise_with_snr y (40 - noisePercent / 100 * (40 - (-20))) r

end NoiseAdder

/-! ### Concrete generator streams used by witnesses and counterexamples -/

/-- The all-zero stream. -/
def rngZero : RState := ⟨fun _ => 0, 0⟩

/-- The all-two stream (every standard draw becomes 1). -/
def rngTwo : RState := ⟨fun _ => 2, 0⟩

/-- A stream that agrees with rngTwo on its first element only; it plays the
role of a second, different seed. -/
def rngTwoZero : RState := ⟨fun n => if n = 0 then 2 else 0, 0⟩

/-- The all-four stream. -/
def rngFour : RState := ⟨fun _ => 4, 0⟩

/-! ### Derived predicates used by the claims -/

instance {ε α : Type} [DecidableEq ε] [DecidableEq α] : DecidableEq (Except ε α) :=
  fun a b =>
    match a, b with
    | Except.error e1, Except.error e2 =>
        if h : e1 = e2 then Decidable.isTrue (by rw [h])
        else Decidable.isFalse (by intro hc; cases hc; exact h rfl)
    | Except.error _, Except.ok _ => Decidable.isFalse (by intro hc; cases hc)
    | Except.ok _, Except.error _ => Decidable.isFalse (by intro hc; cases hc)
    | Except.ok a1, Except.ok a2 =>
        if h : a1 = a2 then Decidable.isTrue (by rw [h])
        else Decidable.isFalse (by intro hc; cases hc; exact h rfl)

/-- Invariant of one note: non-negative onset and duration at least 0.1 s. -/
def noteInv (nt : Note) : Prop := 0 ≤ nt.start ∧ 1 / 10 ≤ nt.stop - nt.start

instance (nt : Note) : Decidable (noteInv nt) :=
  inferInstanceAs (Decidable (_ ∧ _))

/-- Invariant over a whole score: every note of every track satisfies
noteInv. -/
def durOk (pm : PrettyMIDI) : Prop :=
  ∀ inst ∈ pm.instruments, ∀ nt ∈ inst.notes, noteInv nt

instance (pm : PrettyMIDI) : Decidable (durOk pm) :=
  inferInstanceAs (Decidable (∀ inst ∈ pm.instruments, ∀ nt ∈ inst.notes, noteInv nt))

/-- The sample count int(noiseLevel * N) of a track lies in [0, N]; exactly
when this fails for some track does np.random.choice raise. -/
def sampleCountOk (L : ℚ) (inst : Instrument) : Prop :=
  0 ≤ pyInt (L * inst.notes.length) ∧
    pyInt (L * inst.notes.length) ≤ (inst.notes.length : ℤ)

instance (L : ℚ) (inst : Instrument) : Decidable (sampleCountOk L inst) :=
  inferInstanceAs (Decidable (_ ∧ _))

/-- The pitch of a note lies in the closed range [lo, hi]. -/
def pitchIn (lo hi : ℤ) (nt : Note) : Prop := lo ≤ nt.pitch ∧ nt.pitch ≤ hi

instance (lo hi : ℤ) (nt : Note) : Decidable (pitchIn lo hi nt) :=
  inferInstanceAs (Decidable (_ ∧ _))

/-- The note stored at position j, when there is one, has pitch in
[lo, hi]. -/
def pitchOkAt (lo hi : ℤ) (notes : List Note) (j : Nat) : Prop :=
  ∀ nt, notes[j]? = some nt → pitchIn lo hi nt


/-! ### Lemmas about the shared numeric helpers -/

lemma peakAbs_cons (x : ℚ) (xs : List ℚ) : peakAbs (x :: xs) = max |x| (peakAbs xs) := rfl

lemma peakAbs_nonneg (xs : List ℚ) : 0 ≤ peakAbs xs := by
  induction xs with
  | nil => exact le_refl 0
  | cons x xs ih => rw [peakAbs_cons]; exact le_max_of_le_right ih

lemma max_div_pos (a b c : ℚ) (hc : 0 < c) : max a b / c = max (a / c) (b / c) := by
  rcases le_total a b with h | h
  · rw [max_eq_right h, max_eq_right ((div_le_div_iff_of_pos_right hc).mpr h)]
  · rw [max_eq_left h, max_eq_left ((div_le_div_iff_of_pos_right hc).mpr h)]

lemma peakAbs_map_div (xs : List ℚ) (c : ℚ) (hc : 0 < c) :
    peakAbs (xs.map (· / c)) = peakAbs xs / c := by
  induction xs with
  | nil => simp [peakAbs]
  | cons x xs ih =>
      rw [List.map_cons, peakAbs_cons, peakAbs_cons, ih, abs_div, abs_of_pos hc,
        max_div_pos _ _ _ hc]

lemma normalizeIfPos_length (xs : List ℚ) : (normalizeIfPos xs).length = xs.length := by
  unfold normalizeIfPos
  split
  · exact List.length_map xs _
  · rfl

lemma peakAbs_normalizeIfPos (xs : List ℚ) (h : 0 < peakAbs xs) :
    peakAbs (normalizeIfPos xs) = 1 := by
  rw [normalizeIfPos, if_pos h, peakAbs_map_div _ _ h, div_self (ne_of_gt h)]

lemma peakAbs_normalizeIfPos_le_one (xs : List ℚ) : peakAbs (normalizeIfPos xs) ≤ 1 := by
  by_cases h : 0 < peakAbs xs
  · exact le_of_eq (peakAbs_normalizeIfPos xs h)
  · rw [normalizeIfPos, if_neg h]
    have := peakAbs_nonneg xs
    have := not_lt.mp h
    linarith

lemma normalizeIfPos_of_peak_eq_zero (xs : List ℚ) (h : peakAbs xs = 0) :
    normalizeIfPos xs = xs := by
  rw [normalizeIfPos, if_neg (by rw [h]; exact lt_irrefl 0)]

lemma normalizeIfPos_getD_zero (xs : List ℚ) (j : Nat) (h : xs.getD j 0 = 0) :
    (normalizeIfPos xs).getD j 0 = 0 := by
  unfold normalizeIfPos
  split
  · rw [List.getD_eq_getElem?_getD, List.getElem?_map]
    rw [List.getD_eq_getElem?_getD] at h
    cases hx : xs[j]? with
    | none => rfl
    | some v =>
        rw [hx] at h
        simp only [Option.getD_some] at h
        simp [hx, h]
  · exact h

lemma peakAbs_normalizeIfOver1_le_one (xs : List ℚ) :
    peakAbs (NoiseAdder.normalizeIfOver1 xs) ≤ 1 := by
  unfold NoiseAdder.normalizeIfOver1
  split
  · next h =>
      rw [peakAbs_map_div _ _ (lt_trans zero_lt_one h)]
      exact le_of_eq (div_self (ne_of_gt (lt_trans zero_lt_one h)))
  · next h => exact not_lt.mp h

lemma pyInt_eq_floor (q : ℚ) (h : 0 ≤ q) : pyInt q = ⌊q⌋ := by
  rw [Rat.floor_def, pyInt, Int.tdiv_eq_ediv (Rat.num_nonneg.mpr h) (Int.ofNat_nonneg q.den)]

lemma pyInt_nonneg (q : ℚ) (h : 0 ≤ q) : 0 ≤ pyInt q :=
  Int.tdiv_nonneg (Rat.num_nonneg.mpr h) (Int.ofNat_nonneg q.den)

lemma pyInt_le_natCast (q : ℚ) (n : Nat) (h0 : 0 ≤ q) (h : q ≤ n) : pyInt q ≤ n := by
  rw [pyInt_eq_floor q h0]
  exact le_trans (Int.floor_le_floor h) (le_of_eq (Int.floor_natCast n))

lemma pyInt_natCast (n : Nat) : pyInt (n : ℚ) = n := by
  rw [pyInt_eq_floor _ (Nat.cast_nonneg n), Int.floor_natCast]

lemma qSqrt_of_nonpos (q : ℚ) (h : q ≤ 0) : qSqrt q = 0 := if_pos h

/-! ### Lemmas about the model of np.random.choice -/

lemma pickLoop_succ_some (k : Nat) (pool : List Nat) (r : RState) (x : Nat)
    (hx : pool[(rnext r).1 % pool.length]? = some x) :
    pickLoop (k + 1) pool r
      = (x :: (pickLoop k (pool.erase x) (rnext r).2).1,
         (pickLoop k (pool.erase x) (rnext r).2).2) := by
  simp only [pickLoop, hx]

lemma pickLoop_succ_none (k : Nat) (pool : List Nat) (r : RState)
    (hx : pool[(rnext r).1 % pool.length]? = none) :
    pickLoop (k + 1) pool r = ([], (rnext r).2) := by
  simp only [pickLoop, hx]

lemma pickLoop_length : ∀ (k : Nat) (pool : List Nat) (r : RState), k ≤ pool.length →
    ((pickLoop k pool r).1).length = k := by
  intro k
  induction k with
  | zero => intro pool r _; rfl
  | succ k ih =>
      intro pool r h
      have hpos : 0 < pool.length := Nat.lt_of_lt_of_le (Nat.succ_pos k) h
      have hj : (rnext r).1 % pool.length < pool.length := Nat.mod_lt _ hpos
      rw [pickLoop_succ_some k pool r _ (List.getElem?_eq_getElem hj)]
      have hmem : pool[(rnext r).1 % pool.length] ∈ pool := List.getElem_mem hj
      have herase := List.length_erase_of_mem hmem
      simp only [List.length_cons]
      rw [ih _ _ (by omega)]

lemma pickLoop_mem : ∀ (k : Nat) (pool : List Nat) (r : RState) (x : Nat),
    x ∈ (pickLoop k pool r).1 → x ∈ pool := by
  intro k
  induction k with
  | zero => intro pool r x hx; cases hx
  | succ k ih =>
      intro pool r x hx
      cases hy : pool[(rnext r).1 % pool.length]? with
      | none => rw [pickLoop_succ_none k pool r hy] at hx; cases hx
      | some y =>
          rw [pickLoop_succ_some k pool r y hy] at hx
          rcases List.mem_cons.mp hx with h | h
          · subst h; exact List.getElem?_mem hy
          · exact List.erase_subset _ _ (ih _ _ _ h)

lemma pickLoop_nodup : ∀ (k : Nat) (pool : List Nat) (r : RState), pool.Nodup →
    ((pickLoop k pool r).1).Nodup := by
  intro k
  induction k with
  | zero => intro pool r _; exact List.nodup_nil
  | succ k ih =>
      intro pool r hnd
      cases hy : pool[(rnext r).1 % pool.length]? with
      | none => rw [pickLoop_succ_none k pool r hy]; exact List.nodup_nil
      | some y =>
          rw [pickLoop_succ_some k pool r y hy]
          refine List.nodup_cons.mpr ⟨?_, ih _ _ (List.Nodup.erase y hnd)⟩
          intro hmem
          have hy2 := pickLoop_mem _ _ _ _ hmem
          exact ((List.Nodup.mem_erase_iff hnd).mp hy2).1 rfl

lemma npChoice_ok (n : Nat) (k : ℤ) (r : RState) (h0 : 0 ≤ k) (hn : k ≤ n) :
    npChoice n k r = Except.ok (pickLoop k.toNat (List.range n) r) := by
  rw [npChoice, if_neg (by simp only [not_or, not_lt]; exact ⟨h0, hn⟩)]

lemma npChoice_spec (n : Nat) (k : ℤ) (r : RState) (out : List Nat × RState)
    (h : npChoice n k r = Except.ok out) :
    out.1.length = k.toNat ∧ out.1.Nodup ∧ ∀ i ∈ out.1, i < n := by
  by_cases hc : k < 0 ∨ (n : ℤ) < k
  · rw [npChoice, if_pos hc] at h; cases h
  · rw [npChoice, if_neg hc] at h
    cases h
    have hkn : k.toNat ≤ (List.range n).length := by
      rw [List.length_range]; omega
    refine ⟨pickLoop_length _ _ _ hkn, pickLoop_nodup _ _ _ (List.nodup_range n), ?_⟩
    intro i hi
    exact List.mem_range.mp (pickLoop_mem _ _ _ _ hi)

lemma npChoice_exists_ok_iff (n : Nat) (k : ℤ) (r : RState) :
    (∃ v, npChoice n k r = Except.ok v) ↔ (0 ≤ k ∧ k ≤ n) := by
  constructor
  · rintro ⟨v, hv⟩
    by_cases hc : k < 0 ∨ (n : ℤ) < k
    · rw [npChoice, if_pos hc] at hv; cases hv
    · simp only [not_or, not_lt] at hc; exact hc
  · rintro ⟨h0, hn⟩
    exact ⟨_, npChoice_ok n k r h0 hn⟩

/-! ### The schedule invariant of the symbolic randomizers -/

/-- Preservation of a predicate through a left fold. -/
lemma foldl_preserve {α β : Type} {step : α → β → α} {P : α → Prop}
    (hstep : ∀ a b, P a → P (step a b)) :
    ∀ (l : List β) (a : α), P a → P (l.foldl step a) := by
  intro l
  induction l with
  | nil => intro a h; exact h
  | cons b l ih => intro a h; exact ih _ (hstep a b h)

lemma randomizePitchAt_noteInv (lo hi : ℤ) (std L : ℚ) (pres : Bool)
    (acc : List Note × RState) (idx : Nat)
    (h : ∀ nt ∈ acc.1, noteInv nt) :
    ∀ nt ∈ (MusConstPert.randomizePitchAt lo hi std L pres acc idx).1, noteInv nt := by
  obtain ⟨notes, r⟩ := acc
  intro nt hnt
  simp only [MusConstPert.randomizePitchAt] at hnt
  cases hx : notes[idx]? with
  | none => simp only [hx] at hnt; exact h nt hnt
  | some note =>
      simp only [hx] at hnt
      have hnote := h note (List.getElem?_mem hx)
      cases pres with
      | true =>
          simp only [if_pos] at hnt
          rcases List.mem_or_eq_of_mem_set hnt with hmem | heq
          · exact h nt hmem
          · subst heq; exact hnote
      | false =>
          simp only [Bool.false_eq_true, if_false] at hnt
          rcases List.mem_or_eq_of_mem_set hnt with hmem | heq
          · exact h nt hmem
          · subst heq; exact hnote

lemma timingAt_noteInv (w : ℚ) (acc : List Note × RState) (idx : Nat)
    (h : ∀ nt ∈ acc.1, noteInv nt) :
    ∀ nt ∈ (MusConstPert.timingAt w acc idx).1, noteInv nt := by
  obtain ⟨notes, r⟩ := acc
  intro nt hnt
  simp only [MusConstPert.timingAt] at hnt
  cases hx : notes[idx]? with
  | none => simp only [hx] at hnt; exact h nt hnt
  | some note =>
      simp only [hx] at hnt
      have hnote := h note (List.getElem?_mem hx)
      rcases List.mem_or_eq_of_mem_set hnt with hmem | heq
      · exact h nt hmem
      · subst heq
        refine ⟨le_max_left 0 _, ?_⟩
        rw [add_sub_cancel_left]
        exact hnote.2

lemma durationAt_noteInv (w : ℚ) (acc : List Note × RState) (idx : Nat)
    (h : ∀ nt ∈ acc.1, noteInv nt) :
    ∀ nt ∈ (MusConstPert.durationAt w acc idx).1, noteInv nt := by
  obtain ⟨notes, r⟩ := acc
  intro nt hnt
  simp only [MusConstPert.durationAt] at hnt
  cases hx : notes[idx]? with
  | none => simp only [hx] at hnt; exact h nt hnt
  | some note =>
      simp only [hx] at hnt
      have hnote := h note (List.getElem?_mem hx)
      rcases List.mem_or_eq_of_mem_set hnt with hmem | heq
      · exact h nt hmem
      · subst heq
        refine ⟨hnote.1, ?_⟩
        rw [add_sub_cancel_left]
        exact le_max_left _ _

lemma MusConst_instrument_noteInv (inst : Instrument) (L : ℚ) (pres : Bool)
    (r : RState) (out : Instrument × RState)
    (hin : ∀ nt ∈ inst.notes, noteInv nt)
    (h : MusConstPert.randomizeInstrument inst L pres r = Except.ok out) :
    ∀ nt ∈ out.1.notes, noteInv nt := by
  rw [MusConstPert.randomizeInstrument] at h
  by_cases hn : inst.notes.length = 0
  · rw [if_pos hn] at h
    cases h
    exact hin
  · rw [if_neg hn] at h
    cases hsel : MusConstPert.selectIndices inst.notes.length L r with
    | error e => rw [hsel] at h; cases h
    | ok sel =>
        rw [hsel] at h
        cases h
        exact foldl_preserve (durationAt_noteInv _) _ _
          (foldl_preserve (timingAt_noteInv _) _ _
            (foldl_preserve (randomizePitchAt_noteInv _ _ _ _ _) _ _ hin))

lemma Comb_instrument_noteInv (inst : Instrument) (L : ℚ)
    (r : RState) (out : Instrument × RState)
    (hin : ∀ nt ∈ inst.notes, noteInv nt)
    (h : MusicalPertComb.randomizeInstrument inst L r = Except.ok out) :
    ∀ nt ∈ out.1.notes, noteInv nt := by
  rw [MusicalPertComb.randomizeInstrument] at h
  by_cases hn : inst.notes.length = 0
  · rw [if_pos hn] at h
    cases h
    exact hin
  · rw [if_neg hn] at h
    cases hsel : MusConstPert.selectIndices inst.notes.length L r with
    | error e => rw [hsel] at h; cases h
    | ok sel =>
        rw [hsel] at h
        cases h
        exact foldl_preserve (durationAt_noteInv _) _ _
          (foldl_preserve (timingAt_noteInv _) _ _
            (foldl_preserve (randomizePitchAt_noteInv _ _ _ _ _) _ _ hin))

lemma MusConst_instruments_noteInv :
    ∀ (insts : List Instrument) (L : ℚ) (pres : Bool) (r : RState)
      (out : List Instrument × RState),
      (∀ inst ∈ insts, ∀ nt ∈ inst.notes, noteInv nt) →
      MusConstPert.randomizeInstruments insts L pres r = Except.ok out →
      ∀ inst ∈ out.1, ∀ nt ∈ inst.notes, noteInv nt := by
  intro insts
  induction insts with
  | nil =>
      intro L pres r out _ h
      cases h
      intro inst hinst
      cases hinst
  | cons i rest ih =>
      intro L pres r out hin h
      rw [MusConstPert.randomizeInstruments] at h
      cases h1 : MusConstPert.randomizeInstrument i L pres r with
      | error e => rw [h1] at h; cases h
      | ok p =>
          simp only [h1] at h
          cases h2 : MusConstPert.randomizeInstruments rest L pres p.2 with
          | error e => rw [h2] at h; cases h
          | ok q =>
              rw [h2] at h
              cases h
              intro inst hinst
              rcases List.mem_cons.mp hinst with heq | hmem
              · subst heq
                exact MusConst_instrument_noteInv i L pres r p
                  (hin i (List.mem_cons_self i rest)) h1
              · exact ih L pres p.2 q
                  (fun inst2 h2m => hin inst2 (List.mem_cons_of_mem i h2m)) h2 inst hmem

lemma Comb_instruments_noteInv :
    ∀ (insts : List Instrument) (L : ℚ) (r : RState)
      (out : List Instrument × RState),
      (∀ inst ∈ insts, ∀ nt ∈ inst.notes, noteInv nt) →
      MusicalPertComb.randomizeInstruments insts L r = Except.ok out →
      ∀ inst ∈ out.1, ∀ nt ∈ inst.notes, noteInv nt := by
  intro insts
  induction insts with
  | nil =>
      intro L r out _ h
      cases h
      intro inst hinst
      cases hinst
  | cons i rest ih =>
      intro L r out hin h
      rw [MusicalPertComb.randomizeInstruments] at h
      cases h1 : MusicalPertComb.randomizeInstrument i L r with
      | error e => rw [h1] at h; cases h
      | ok p =>
          simp only [h1] at h
          cases h2 : MusicalPertComb.randomizeInstruments rest L p.2 with
          | error e => rw [h2] at h; cases h
          | ok q =>
              rw [h2] at h
              cases h
              intro inst hinst
              rcases List.mem_cons.mp hinst with heq | hmem
              · subst heq
                exact Comb_instrument_noteInv i L r p
                  (hin i (List.mem_cons_self i rest)) h1
              · exact ih L p.2 q
                  (fun inst2 h2m => hin inst2 (List.mem_cons_of_mem i h2m)) h2 inst hmem

/-- Claim C2, counterexample.  The claim asserts the 0.1 s minimum duration
floor for every note after any randomize call with noiseLevel in [0, 1].  A
score whose single note has duration 0.05 s, randomized at noiseLevel 0 (in
range), comes back unchanged: the note still violates the floor, because the
floor is applied only to notes selected for duration perturbation. -/
theorem c2_counterexample :
    (MusConstPert.randomize_midi ⟨[⟨[⟨60, 0, 1 / 20⟩]⟩]⟩ 0 true rngZero).map Prod.fst
      = Except.ok ⟨[⟨[⟨60, 0, 1 / 20⟩]⟩]⟩ ∧
    ¬ durOk ⟨[⟨[⟨60, 0, 1 / 20⟩]⟩]⟩ :=
  of_decide_eq_true (by with_unfolding_all rfl)

/-- Claim C2, amended: for both symbolic randomizers (mus_const_pert.py and
musical_pert_comb.py), if every note of the input score satisfies onset at
least 0 and duration at least 0.1 s, then every note of a successfully
returned score satisfies them too; notes the duration loop does not touch
simply keep their input duration, so the unconditional floor of the original
claim holds only under this input hypothesis. -/
theorem c2_duration_invariant :
    (∀ (pm : PrettyMIDI) (L : ℚ) (pres : Bool) (r : RState)
        (out : PrettyMIDI × RState), durOk pm →
        MusConstPert.randomize_midi pm L pres r = Except.ok out → durOk out.1) ∧
    (∀ (pm : PrettyMIDI) (L : ℚ) (r : RState) (out : PrettyMIDI × RState),
        durOk pm →
        MusicalPertComb.randomize_midi pm L r = Except.ok out → durOk out.1) := by
  constructor
  · intro pm L pres r out hin h
    rw [MusConstPert.randomize_midi] at h
    cases h1 : MusConstPert.randomizeInstruments pm.instruments L pres r with
    | error e => rw [h1] at h; cases h
    | ok p =>
        rw [h1] at h
        cases h
        exact MusConst_instruments_noteInv pm.instruments L pres r p hin h1
  · intro pm L r out hin h
    rw [MusicalPertComb.randomize_midi] at h
    cases h1 : MusicalPertComb.randomizeInstruments pm.instruments L r with
    | error e => rw [h1] at h; cases h
    | ok p =>
        rw [h1] at h
        cases h
        exact Comb_instruments_noteInv pm.instruments L r p hin h1

/-- Witness for the amended claim C2 at a concrete well-formed score. -/
theorem c2_duration_invariant_witness :
    durOk ⟨[⟨[⟨60, 0, 1⟩]⟩]⟩ :=
  c2_duration_invariant.1 ⟨[⟨[⟨60, 0, 1⟩]⟩]⟩ 0 true rngZero
    (⟨[⟨[⟨60, 0, 1⟩]⟩]⟩, rngZero)
    (of_decide_eq_true (by with_unfolding_all rfl))
    (by with_unfolding_all rfl)

/-- Claim C3, counterexample.  randomize_midi of musical_pert_comb.py mutates
the very score object the caller passes in (the assignments go to
instrument.notes[idx] of that object, and the object is returned): after a
successful call at noiseLevel 1 the caller's score differs from the value it
held before the call. -/
theorem c3_counterexample :
    MusicalPertComb.callerScoreAfter ⟨[⟨[⟨60, 0, 1⟩]⟩]⟩ 1 rngZero
      ≠ ⟨[⟨[⟨60, 0, 1⟩]⟩]⟩ :=
  of_decide_eq_true (by with_unfolding_all rfl)

/-- Claim C3, amended: the independence the claim attributes to
randomize_midi is in fact provided by its caller.  In the per-level body of
process_midi_files the original parsed score keeps its value (the mutation
hits only the deep copy), and for a nonzero noise level the returned score is
randomize_midi applied to a value equal to the original. -/
theorem c3_caller_copy_protects_original :
    ∀ (pm : PrettyMIDI) (L : ℚ) (r : RState),
      (MusicalPertComb.process_level pm L r).1 = pm ∧
      (L ≠ 0 → (MusicalPertComb.process_level pm L r).2
        = MusicalPertComb.randomize_midi pm L r) := by
  intro pm L r
  constructor
  · rw [MusicalPertComb.process_level]
    split <;> rfl
  · intro hL
    rw [MusicalPertComb.process_level, if_neg hL]
    rfl

/-! ### Lemmas about the index selection of the symbolic randomizers -/

lemma selectIndices_spec (n : Nat) (L : ℚ) (r : RState)
    (v : (List Nat × List Nat × List Nat) × RState)
    (h : MusConstPert.selectIndices n L r = Except.ok v) :
    (v.1.1.length = (pyInt (L * n)).toNat ∧ v.1.1.Nodup ∧ ∀ i ∈ v.1.1, i < n) ∧
    (v.1.2.1.length = (pyInt (L * n)).toNat ∧ v.1.2.1.Nodup ∧ ∀ i ∈ v.1.2.1, i < n) ∧
    (v.1.2.2.length = (pyInt (L * n)).toNat ∧ v.1.2.2.Nodup ∧ ∀ i ∈ v.1.2.2, i < n) := by
  rw [MusConstPert.selectIndices] at h
  cases h1 : npChoice n (pyInt (L * n)) r with
  | error e => rw [h1] at h; cases h
  | ok p1 =>
      simp only [h1] at h
      cases h2 : npChoice n (pyInt (L * n)) p1.2 with
      | error e => rw [h2] at h; cases h
      | ok p2 =>
          simp only [h2] at h
          cases h3 : npChoice n (pyInt (L * n)) p2.2 with
          | error e => rw [h3] at h; cases h
          | ok p3 =>
              rw [h3] at h
              cases h
              exact ⟨npChoice_spec _ _ _ _ h1, npChoice_spec _ _ _ _ h2,
                npChoice_spec _ _ _ _ h3⟩

lemma sample_size_in_range (n : Nat) (L : ℚ) (h0 : 0 ≤ L) (h1 : L ≤ 1) :
    0 ≤ pyInt (L * n) ∧ pyInt (L * n) ≤ n := by
  have hm : 0 ≤ L * n := mul_nonneg h0 (Nat.cast_nonneg n)
  exact ⟨pyInt_nonneg _ hm,
    pyInt_le_natCast _ n hm (mul_le_of_le_one_left (Nat.cast_nonneg n) h1)⟩

lemma selectIndices_exists_ok_iff (n : Nat) (L : ℚ) (r : RState) :
    (∃ v, MusConstPert.selectIndices n L r = Except.ok v)
      ↔ (0 ≤ pyInt (L * n) ∧ pyInt (L * n) ≤ n) := by
  constructor
  · rintro ⟨v, hv⟩
    rw [MusConstPert.selectIndices] at hv
    cases h1 : npChoice n (pyInt (L * n)) r with
    | error e => rw [h1] at hv; cases hv
    | ok p1 => exact (npChoice_exists_ok_iff n _ r).mp ⟨p1, h1⟩
  · rintro ⟨h0, hn⟩
    cases hs : MusConstPert.selectIndices n L r with
    | ok v => exact ⟨v, rfl⟩
    | error e =>
        exfalso
        rw [MusConstPert.selectIndices] at hs
        rw [npChoice_ok _ _ _ h0 hn] at hs
        simp only [] at hs
        rw [npChoice_ok _ _ _ h0 hn] at hs
        simp only [] at hs
        rw [npChoice_ok _ _ _ h0 hn] at hs
        simp only [] at hs
        cases hs

/-- Claim C4, counterexample.  The claim states that each index subset has
exactly round(noiseLevel * N) elements.  For a track of N = 3 notes at
noiseLevel 0.5 the source computes int(0.5 * 3) = 1 (truncation), while
round(1.5) = 2 under the round-half-to-even rule of the language the source
is written in. -/
theorem c4_counterexample :
    (MusConstPert.selectIndices 3 (1 / 2) rngZero).map (fun v => v.1.1.length)
        = Except.ok 1 ∧
    pyRound ((1 / 2 : ℚ) * (3 : Nat)) = 2 ∧ (1 : Nat) ≠ 2 :=
  of_decide_eq_true (by with_unfolding_all rfl)

/-- Claim C4, amended: for every track with N notes and noiseLevel in [0, 1],
the randomizer draws three index subsets, each of exactly
int(noiseLevel * N) (truncation, not rounding) distinct note positions
chosen without replacement; the three subsets may overlap each other. -/
theorem c4_three_index_subsets (n : Nat) (L : ℚ) (r : RState)
    (h0 : 0 ≤ L) (h1 : L ≤ 1) :
    ∃ v, MusConstPert.selectIndices n L r = Except.ok v ∧
      (v.1.1.length = (pyInt (L * n)).toNat ∧ v.1.1.Nodup ∧ ∀ i ∈ v.1.1, i < n) ∧
      (v.1.2.1.length = (pyInt (L * n)).toNat ∧ v.1.2.1.Nodup ∧ ∀ i ∈ v.1.2.1, i < n) ∧
      (v.1.2.2.length = (pyInt (L * n)).toNat ∧ v.1.2.2.Nodup ∧ ∀ i ∈ v.1.2.2, i < n) := by
  obtain ⟨hk0, hkn⟩ := sample_size_in_range n L h0 h1
  obtain ⟨v, hv⟩ := (selectIndices_exists_ok_iff n L r).mpr ⟨hk0, hkn⟩
  exact ⟨v, hv, selectIndices_spec n L r v hv⟩

/-- Witness for the amended claim C4 at a concrete track size and noise
level. -/
theorem c4_three_index_subsets_witness :
    ∃ v, MusConstPert.selectIndices 3 (1 / 2) rngZero = Except.ok v ∧
      (v.1.1.length = (pyInt ((1 / 2 : ℚ) * (3 : Nat))).toNat ∧ v.1.1.Nodup ∧
        ∀ i ∈ v.1.1, i < 3) ∧
      (v.1.2.1.length = (pyInt ((1 / 2 : ℚ) * (3 : Nat))).toNat ∧ v.1.2.1.Nodup ∧
        ∀ i ∈ v.1.2.1, i < 3) ∧
      (v.1.2.2.length = (pyInt ((1 / 2 : ℚ) * (3 : Nat))).toNat ∧ v.1.2.2.Nodup ∧
        ∀ i ∈ v.1.2.2, i < 3) :=
  c4_three_index_subsets 3 (1 / 2) rngZero
    (of_decide_eq_true (by with_unfolding_all rfl))
    (of_decide_eq_true (by with_unfolding_all rfl))

/-! ### Error characterization of the symbolic randomizer -/

lemma randomizeInstrument_exists_ok_iff (inst : Instrument) (L : ℚ) (pres : Bool)
    (r : RState) :
    (∃ v, MusConstPert.randomizeInstrument inst L pres r = Except.ok v)
      ↔ sampleCountOk L inst := by
  by_cases hn : inst.notes.length = 0
  · constructor
    · intro _
      refine ⟨?_, ?_⟩ <;>
        simp [sampleCountOk, hn, pyInt, mul_zero]
    · intro _
      exact ⟨(inst, r), by rw [MusConstPert.randomizeInstrument, if_pos hn]⟩
  · constructor
    · rintro ⟨v, hv⟩
      rw [MusConstPert.randomizeInstrument, if_neg hn] at hv
      cases hsel : MusConstPert.selectIndices inst.notes.length L r with
      | error e => rw [hsel] at hv; cases hv
      | ok sel =>
          exact (selectIndices_exists_ok_iff inst.notes.length L r).mp ⟨sel, hsel⟩
    · intro hc
      obtain ⟨sel, hsel⟩ := (selectIndices_exists_ok_iff inst.notes.length L r).mpr hc
      exact ⟨_, by rw [MusConstPert.randomizeInstrument, if_neg hn, hsel]⟩

lemma randomizeInstruments_exists_ok_iff :
    ∀ (insts : List Instrument) (L : ℚ) (pres : Bool) (r : RState),
      (∃ v, MusConstPert.randomizeInstruments insts L pres r = Except.ok v)
        ↔ ∀ inst ∈ insts, sampleCountOk L inst := by
  intro insts
  induction insts with
  | nil =>
      intro L pres r
      constructor
      · intro _ inst hinst; cases hinst
      · intro _; exact ⟨([], r), rfl⟩
  | cons i rest ih =>
      intro L pres r
      constructor
      · rintro ⟨v, hv⟩
        rw [MusConstPert.randomizeInstruments] at hv
        cases h1 : MusConstPert.randomizeInstrument i L pres r with
        | error e => rw [h1] at hv; cases hv
        | ok p =>
            simp only [h1] at hv
            cases h2 : MusConstPert.randomizeInstruments rest L pres p.2 with
            | error e => rw [h2] at hv; cases hv
            | ok q =>
                intro inst hinst
                rcases List.mem_cons.mp hinst with heq | hmem
                · subst heq
                  exact (randomizeInstrument_exists_ok_iff inst L pres r).mp ⟨p, h1⟩
                · exact ((ih L pres p.2).mp ⟨q, h2⟩) inst hmem
      · intro hc
        obtain ⟨p, hp⟩ := (randomizeInstrument_exists_ok_iff i L pres r).mpr
          (hc i (List.mem_cons_self i rest))
        obtain ⟨q, hq⟩ := (ih L pres p.2).mpr
          (fun inst hm => hc inst (List.mem_cons_of_mem i hm))
        refine ⟨(p.1 :: q.1, q.2), ?_⟩
        rw [MusConstPert.randomizeInstruments]
        simp only [hp, hq]

/-- Claim C9, counterexample.  The claim asserts that any noiseLevel outside
[0, 1] makes the randomizer fail.  At noiseLevel -0.1 on a three-note track,
int(-0.1 * 3) truncates to 0, np.random.choice(3, 0) succeeds, and the call
returns the unchanged score instead of raising. -/
theorem c9_counterexample :
    ((-1 / 10 : ℚ) < 0) ∧
    (MusConstPert.randomize_midi ⟨[⟨[⟨60, 0, 1⟩, ⟨62, 1, 2⟩, ⟨64, 2, 3⟩]⟩]⟩
        (-1 / 10) true rngZero).map Prod.fst
      = Except.ok ⟨[⟨[⟨60, 0, 1⟩, ⟨62, 1, 2⟩, ⟨64, 2, 3⟩]⟩]⟩ :=
  of_decide_eq_true (by with_unfolding_all rfl)

/-- Claim C9, amended: the symbolic randomizer performs no explicit range
validation of noiseLevel.  A call succeeds exactly when every track's sample
count int(noiseLevel * N) lies in [0, N]; outside that it fails with the
underlying library's ValueError.  In particular some out-of-range noise
levels (for example -0.1) succeed, so the original blanket claim fails. -/
theorem c9_error_characterization (pm : PrettyMIDI) (L : ℚ) (r : RState) :
    (∃ v, MusConstPert.randomize_midi pm L true r = Except.ok v)
      ↔ ∀ inst ∈ pm.instruments, sampleCountOk L inst := by
  constructor
  · rintro ⟨v, hv⟩
    rw [MusConstPert.randomize_midi] at hv
    cases h1 : MusConstPert.randomizeInstruments pm.instruments L true r with
    | error e => rw [h1] at hv; cases hv
    | ok p => exact (randomizeInstruments_exists_ok_iff pm.instruments L true r).mp ⟨p, h1⟩
  · intro hc
    obtain ⟨p, hp⟩ := (randomizeInstruments_exists_ok_iff pm.instruments L true r).mpr hc
    exact ⟨(⟨p.1⟩, p.2), by rw [MusConstPert.randomize_midi, hp]⟩

/-- Witness for the amended claim C9: a concrete out-of-range noise level
whose per-track sample counts are all in range, so the call returns
normally. -/
theorem c9_error_characterization_witness :
    ∃ v, MusConstPert.randomize_midi ⟨[⟨[⟨60, 0, 1⟩, ⟨62, 1, 2⟩, ⟨64, 2, 3⟩]⟩]⟩
        (-1 / 10) true rngZero = Except.ok v :=
  (c9_error_characterization ⟨[⟨[⟨60, 0, 1⟩, ⟨62, 1, 2⟩, ⟨64, 2, 3⟩]⟩]⟩
      (-1 / 10) rngZero).mpr
    (of_decide_eq_true (by with_unfolding_all rfl))

/-! ### The noise-level-0 bypass of the batch drivers -/

lemma map_div_one (xs : List ℚ) : xs.map (· / 1) = xs := by
  induction xs with
  | nil => rfl
  | cons x xs ih => rw [List.map_cons, div_one, ih]

lemma peakAbs_prenormalize (y : List ℚ) (h : 0 < peakAbs y) :
    peakAbs (AudioPert.prenormalize y) = 1 := by
  rw [AudioPert.prenormalize, peakAbs_map_div _ _ h, div_self (ne_of_gt h)]

lemma prenormalize_of_peak_one (y : List ℚ) (h : peakAbs y = 1) :
    AudioPert.prenormalize y = y := by
  rw [AudioPert.prenormalize, h, map_div_one]

/-- Claim C1, counterexample.  The SNR-injection driver of noise_adder.py has
no bypass at noise level 0: the 0 percent row maps to a target SNR of 40 dB
and noise is still generated and added, so two different generator streams
produce different outputs at noise level 0. -/
theorem c1_counterexample :
    (NoiseAdder.process_level [1 / 2, -1 / 2] 0 rngTwo).1
      ≠ (NoiseAdder.process_level [1 / 2, -1 / 2] 0 rngTwoZero).1 :=
  of_decide_eq_true (by with_unfolding_all rfl)

/-- Claim C1, amended: the symbolic driver (mus_const_pert.py) and the
spectral/temporal audio driver (audio_pert.py) do bypass at noise level 0:
the symbolic driver returns the original score and an untouched generator,
and the audio driver returns exactly the peak-normalized input with an
untouched generator, for every generator state; only the SNR-injection
driver lacks the bypass. -/
theorem c1_level_zero_bypass :
    (∀ (pm : PrettyMIDI) (r : RState),
        MusConstPert.process_level pm 0 r = Except.ok (pm, r)) ∧
    (∀ (y : List ℚ) (sr : Nat) (r : RState), 0 < peakAbs y →
        AudioPert.process_level y 0 sr r = (AudioPert.prenormalize y, r)) := by
  constructor
  · intro pm r
    rw [MusConstPert.process_level, if_pos rfl]
  · intro y sr r h
    rw [AudioPert.process_level, if_pos rfl, if_pos rfl,
      prenormalize_of_peak_one _ (peakAbs_prenormalize y h)]

/-- Witness for the amended claim C1 at a concrete score, waveform and pair
of generator states. -/
theorem c1_level_zero_bypass_witness :
    MusConstPert.process_level ⟨[⟨[⟨60, 0, 1⟩]⟩]⟩ 0 rngTwo
        = Except.ok (⟨[⟨[⟨60, 0, 1⟩]⟩]⟩, rngTwo) ∧
    AudioPert.process_level [1 / 2] 0 44100 rngTwo
        = (AudioPert.prenormalize [1 / 2], rngTwo) :=
  ⟨c1_level_zero_bypass.1 ⟨[⟨[⟨60, 0, 1⟩]⟩]⟩ rngTwo,
   c1_level_zero_bypass.2 [1 / 2] 44100 rngTwo
     (of_decide_eq_true (by with_unfolding_all rfl))⟩

/-! ### Peak normalization of the emitted waveforms -/

/-- Claim C6, counterexample.  The SNR injector only rescales when the peak
exceeds 1; on a non-silent output whose peak stays below 1 the result is not
peak-normalized to 1, contradicting the claim for the SNR transform. -/
theorem c6_counterexample :
    peakAbs (NoiseAdder.add_noise_with_snr [1 / 2, -1 / 2] 40 rngTwo).1 ≠ 1 ∧
    (NoiseAdder.add_noise_with_snr [1 / 2, -1 / 2] 40 rngTwo).1
      ≠ List.replicate 2 0 :=
  of_decide_eq_true (by with_unfolding_all rfl)

/-- Claim C6, amended: the spectral and temporal transforms peak-normalize
their result; the output peak is at most 1, and it is exactly 1 unless the
pre-normalization signal is silent, in which case the silent signal passes
through unscaled and no division occurs.  The SNR injector guarantees only
a peak of at most 1: it divides by the peak exactly when the peak exceeds 1,
so a non-silent output need not have peak 1. -/
theorem c6_peak_normalization :
    (∀ (stftMP : List ℚ → List (ℚ × ℚ)) (istftMP : List (ℚ × ℚ) → Nat → List ℚ)
        (signal : List ℚ) (L : ℚ) (r : RState),
        peakAbs (AudioPert.add_noise_in_frequency_domain stftMP istftMP signal L r).1 ≤ 1 ∧
        (peakAbs (AudioPert.spectralCore stftMP istftMP signal L r).1 = 0 ∨
          peakAbs (AudioPert.add_noise_in_frequency_domain stftMP istftMP signal L r).1 = 1) ∧
        (peakAbs (AudioPert.spectralCore stftMP istftMP signal L r).1 = 0 →
          (AudioPert.add_noise_in_frequency_domain stftMP istftMP signal L r).1
            = (AudioPert.spectralCore stftMP istftMP signal L r).1)) ∧
    (∀ (signal : List ℚ) (L : ℚ) (sr : Nat) (r : RState),
        peakAbs (AudioPert.add_time_domain_jitter signal L sr r).1 ≤ 1 ∧
        (peakAbs (AudioPert.jitterCore signal L sr r).1 = 0 ∨
          peakAbs (AudioPert.add_time_domain_jitter signal L sr r).1 = 1) ∧
        (peakAbs (AudioPert.jitterCore signal L sr r).1 = 0 →
          (AudioPert.add_time_domain_jitter signal L sr r).1
            = (AudioPert.jitterCore signal L sr r).1)) ∧
    (∀ (signal : List ℚ) (snr : ℚ) (r : RState),
        peakAbs (NoiseAdder.add_noise_with_snr signal snr r).1 ≤ 1) := by
  refine ⟨?_, ?_, ?_⟩
  · intro stftMP istftMP signal L r
    refine ⟨peakAbs_normalizeIfPos_le_one _, ?_, ?_⟩
    · by_cases h : peakAbs (AudioPert.spectralCore stftMP istftMP signal L r).1 = 0
      · exact Or.inl h
      · exact Or.inr (peakAbs_normalizeIfPos _
          (lt_of_le_of_ne (peakAbs_nonneg _) (Ne.symm h)))
    · intro h
      exact normalizeIfPos_of_peak_eq_zero _ h
  · intro signal L sr r
    refine ⟨peakAbs_normalizeIfPos_le_one _, ?_, ?_⟩
    · by_cases h : peakAbs (AudioPert.jitterCore signal L sr r).1 = 0
      · exact Or.inl h
      · exact Or.inr (peakAbs_normalizeIfPos _
          (lt_of_le_of_ne (peakAbs_nonneg _) (Ne.symm h)))
    · intro h
      exact normalizeIfPos_of_peak_eq_zero _ h
  · intro signal snr r
    exact peakAbs_normalizeIfOver1_le_one _

/-- Witness for the amended claim C6 at concrete transforms: a silent
spectral core passes through unscaled, a non-silent temporal output has peak
exactly 1, and a concrete SNR output has peak at most 1. -/
theorem c6_peak_normalization_witness :
    (AudioPert.add_noise_in_frequency_domain (fun _ => []) (fun _ _ => [0])
        [1] 0 rngTwo).1
      = (AudioPert.spectralCore (fun _ => []) (fun _ _ => [0]) [1] 0 rngTwo).1 ∧
    peakAbs (AudioPert.add_time_domain_jitter [1, 1] 0 200 rngTwo).1 = 1 ∧
    peakAbs (NoiseAdder.add_noise_with_snr [1 / 2, -1 / 2] 40 rngTwo).1 ≤ 1 :=
  ⟨(c6_peak_normalization.1 (fun _ => []) (fun _ _ => [0]) [1] 0 rngTwo).2.2
      (of_decide_eq_true (by with_unfolding_all rfl)),
   Or.resolve_left ((c6_peak_normalization.2.1 [1, 1] 0 200 rngTwo).2.1)
      (of_decide_eq_true (by with_unfolding_all rfl)),
   c6_peak_normalization.2.2 [1 / 2, -1 / 2] 40 rngTwo⟩

/-! ### Power calibration of the SNR injector -/

lemma sum_map_sq_mul (xs : List ℚ) (s : ℚ) :
    ((xs.map (· * s)).map fun x => x ^ 2).sum = s ^ 2 * ((xs.map fun x => x ^ 2).sum) := by
  induction xs with
  | nil => simp
  | cons x xs ih =>
      simp only [List.map_cons, List.sum_cons, ih]
      ring

lemma calculate_power_map_mul (xs : List ℚ) (s : ℚ) :
    NoiseAdder.calculate_power (xs.map (· * s))
      = s ^ 2 * NoiseAdder.calculate_power xs := by
  unfold NoiseAdder.calculate_power npMean
  rw [sum_map_sq_mul]
  simp only [List.length_map]
  rw [mul_div_assoc]

/-- Claim C8: the SNR injector scales the generated noise so that its
empirical power equals exactly signalPower divided by 10 to the power
targetSnrDb / 10, and hence the ratio of signal power to injected-noise
power equals the requested factor (equivalently the recomputed SNR in dB
equals the target).  The hypothesis on scalingFactor states that the square
root the library takes is exact at this argument, as it is over the reals. -/
theorem c8_snr_calibration (signal noise : List ℚ) (snr : ℚ)
    (hs : 0 < NoiseAdder.calculate_power signal)
    (hn : 0 < NoiseAdder.calculate_power noise)
    (ht : 0 < tenPowQ (snr / 10))
    (hsq : NoiseAdder.scalingFactor signal noise snr
        * NoiseAdder.scalingFactor signal noise snr
      = NoiseAdder.desiredNoisePower signal snr / NoiseAdder.calculate_power noise) :
    NoiseAdder.calculate_power (NoiseAdder.scaledNoise signal noise snr)
        = NoiseAdder.calculate_power signal / tenPowQ (snr / 10) ∧
    NoiseAdder.calculate_power signal
        / NoiseAdder.calculate_power (NoiseAdder.scaledNoise signal noise snr)
      = tenPowQ (snr / 10) := by
  have hpow : NoiseAdder.calculate_power (NoiseAdder.scaledNoise signal noise snr)
      = NoiseAdder.desiredNoisePower signal snr := by
    rw [NoiseAdder.scaledNoise, calculate_power_map_mul, pow_two, hsq,
      div_mul_cancel₀ _ (ne_of_gt hn)]
  constructor
  · rw [hpow, NoiseAdder.desiredNoisePower]
  · rw [hpow, NoiseAdder.desiredNoisePower, div_div_eq_mul_div, mul_comm,
      mul_div_assoc, div_self (ne_of_gt hs), mul_one]

/-- Witness for claim C8 at a concrete signal, noise sequence and target. -/
theorem c8_snr_calibration_witness :
    NoiseAdder.calculate_power (NoiseAdder.scaledNoise [1 / 2, -1 / 2] [1, 1] 40)
        = NoiseAdder.calculate_power [1 / 2, -1 / 2] / tenPowQ ((40 : ℚ) / 10) ∧
    NoiseAdder.calculate_power [1 / 2, -1 / 2]
        / NoiseAdder.calculate_power (NoiseAdder.scaledNoise [1 / 2, -1 / 2] [1, 1] 40)
      = tenPowQ ((40 : ℚ) / 10) :=
  c8_snr_calibration [1 / 2, -1 / 2] [1, 1] 40
    (of_decide_eq_true (by with_unfolding_all rfl))
    (of_decide_eq_true (by with_unfolding_all rfl))
    (by rw [show tenPowQ ((40 : ℚ) / 10) = 10000 from by with_unfolding_all rfl]
        norm_num)
    (by with_unfolding_all rfl)

/-! ### Geometry of the temporal frame-jitter transform -/

lemma overlayAdd_length (out : List ℚ) (s : Nat) (frame : List ℚ) :
    (AudioPert.overlayAdd out s frame).length = out.length := by
  rw [AudioPert.overlayAdd, List.length_map, List.enum_length]

lemma overlayAdd_getElem?_of_ge (out : List ℚ) (s : Nat) (frame : List ℚ)
    (j : Nat) (hj : s + frame.length ≤ j) :
    (AudioPert.overlayAdd out s frame)[j]? = out[j]? := by
  rw [AudioPert.overlayAdd, List.getElem?_map, List.getElem?_enum]
  cases hx : out[j]? with
  | none => rfl
  | some v =>
      show some (if s ≤ j ∧ j < s + frame.length then v + frame.getD (j - s) 0 else v)
        = some v
      rw [if_neg (by omega)]

lemma placeFrame_length (out : List ℚ) (pos : ℤ) (frame : List ℚ) :
    (AudioPert.placeFrame out pos frame).length = out.length := by
  rw [AudioPert.placeFrame]
  exact overlayAdd_length _ _ _

lemma placeFrame_getElem?_of_ge (out : List ℚ) (pos : ℤ) (frame : List ℚ)
    (j : Nat) (hj : pos + frame.length ≤ (j : ℤ)) :
    (AudioPert.placeFrame out pos frame)[j]? = out[j]? := by
  rw [AudioPert.placeFrame]
  by_cases hpos : pos < 0
  · simp only [if_pos hpos]
    apply overlayAdd_getElem?_of_ge
    have hd : (frame.drop (-pos).toNat).length = frame.length - (-pos).toNat :=
      List.length_drop _ _
    have htn : ((-pos).toNat : ℤ) = -pos := Int.toNat_of_nonneg (by omega)
    split
    · next hov =>
        have := List.length_take (out.length - 0) (frame.drop (-pos).toNat)
        omega
    · omega
  · simp only [if_neg hpos]
    apply overlayAdd_getElem?_of_ge
    have htn : (pos.toNat : ℤ) = pos := Int.toNat_of_nonneg (by omega)
    split
    · next hov =>
        have := List.length_take (out.length - pos.toNat) frame
        omega
    · omega

lemma drawRandInt_le (m : ℤ) (r : RState) (hm : 0 ≤ m) :
    (drawRandInt (-m) (m + 1) r).1 ≤ m := by
  simp only [drawRandInt, rnext]
  have hlt := Int.emod_lt_of_pos ((r.stream r.pos : ℤ)) (show (0:ℤ) < m + 1 - -m by omega)
  omega

lemma jitterStep_getElem? (signal : List ℚ) (F : Nat) (m : ℤ)
    (acc : List ℚ × RState) (i j : Nat) (hm : 0 ≤ m)
    (hij : (i * F : ℤ) + m + F ≤ (j : ℤ)) :
    ((AudioPert.jitterStep signal F m acc i).1)[j]? = (acc.1)[j]? := by
  obtain ⟨out, r⟩ := acc
  simp only [AudioPert.jitterStep]
  apply placeFrame_getElem?_of_ge
  have hfl : ((signal.drop (i * F)).take F).length ≤ F := by
    rw [List.length_take]
    exact min_le_left _ _
  have hsh := drawRandInt_le m r hm
  omega

lemma foldl_getElem?_invariant :
    ∀ (l : List Nat) (step : (List ℚ × RState) → Nat → (List ℚ × RState)) (j : Nat),
      (∀ acc i, i ∈ l → ((step acc i).1)[j]? = (acc.1)[j]?) →
      ∀ acc, ((l.foldl step acc).1)[j]? = (acc.1)[j]? := by
  intro l
  induction l with
  | nil => intro step j _ acc; rfl
  | cons i rest ih =>
      intro step j hstep acc
      rw [List.foldl_cons]
      rw [ih step j (fun a b hb => hstep a b (List.mem_cons_of_mem i hb)) _,
        hstep acc i (List.mem_cons_self i rest)]

lemma jitterCore_length (signal : List ℚ) (L : ℚ) (sr : Nat) (r : RState) :
    ((AudioPert.jitterCore signal L sr r).1).length = signal.length := by
  rw [AudioPert.jitterCore]
  refine foldl_preserve (P := fun acc : List ℚ × RState => acc.1.length = signal.length)
    ?_ _ _ (List.length_replicate _ _)
  intro a b hp
  obtain ⟨out, r1⟩ := a
  simp only [AudioPert.jitterStep]
  rw [placeFrame_length]
  exact hp

lemma maxShiftSamples_nonneg (sr : Nat) (L : ℚ) (hL : 0 ≤ L) :
    0 ≤ AudioPert.maxShiftSamples sr L := by
  apply pyInt_nonneg
  apply div_nonneg _ (by norm_num)
  exact mul_nonneg (Nat.cast_nonneg sr) (by linarith)

lemma pyInt_mono (q q2 : ℚ) (h0 : 0 ≤ q) (h : q ≤ q2) : pyInt q ≤ pyInt q2 := by
  rw [pyInt_eq_floor _ h0, pyInt_eq_floor _ (le_trans h0 h)]
  exact Int.floor_le_floor h

lemma maxShift_le_frameLen (sr : Nat) (L : ℚ) (h0 : 0 ≤ L) (h1 : L ≤ 1) :
    AudioPert.maxShiftSamples sr L ≤ (AudioPert.frameLen sr : ℤ) := by
  have hq0 : (0 : ℚ) ≤ (sr : ℚ) * (10 * L) / 1000 :=
    div_nonneg (mul_nonneg (Nat.cast_nonneg sr) (by linarith)) (by norm_num)
  have hmono : pyInt ((sr : ℚ) * (10 * L) / 1000) ≤ pyInt ((sr : ℚ) * 10 / 1000) := by
    apply pyInt_mono _ _ hq0
    have : (sr : ℚ) * (10 * L) ≤ (sr : ℚ) * 10 := by nlinarith [Nat.cast_nonneg (α := ℚ) sr]
    linarith
  have hF : ((AudioPert.frameLen sr : Nat) : ℤ) = pyInt ((sr : ℚ) * 10 / 1000) := by
    rw [AudioPert.frameLen]
    exact Int.toNat_of_nonneg (pyInt_nonneg _ (by positivity))
  rw [AudioPert.maxShiftSamples, hF]
  exact hmono

lemma drawRandInt_ge (m : ℤ) (r : RState) (hm : 0 ≤ m) :
    -m ≤ (drawRandInt (-m) (m + 1) r).1 := by
  simp only [drawRandInt, rnext]
  have := Int.emod_nonneg ((r.stream r.pos : ℤ))
    (show (m + 1 - -m : ℤ) ≠ 0 by omega)
  omega

lemma frame_take_length (signal : List ℚ) (F i : Nat)
    (hi : i < signal.length / F) :
    ((signal.drop (i * F)).take F).length = F := by
  rw [List.length_take, List.length_drop]
  have h1 : i * F + F ≤ (signal.length / F) * F := by
    calc i * F + F = (i + 1) * F := by ring
      _ ≤ (signal.length / F) * F := Nat.mul_le_mul_right F (Nat.succ_le_of_lt hi)
  have h2 : (signal.length / F) * F ≤ signal.length := Nat.div_mul_le_self _ _
  omega

lemma write_exact (len F : Nat) (m shift : ℤ) (i : Nat)
    (hm0 : 0 ≤ m) (hmF : m ≤ (F : ℤ)) (hsh1 : -m ≤ shift) (hsh2 : shift ≤ m)
    (hi : i * F + F ≤ len) :
    AudioPert.writeFrameLen len ((i * F : Nat) + shift) F
      = AudioPert.writeSliceLen len ((i * F : Nat) + shift) F := by
  unfold AudioPert.writeFrameLen AudioPert.writeSliceLen AudioPert.pyTakeLen
    AudioPert.pySliceLen
  have hcast : ((i * F : Nat) : ℤ) = (i : ℤ) * F := by push_cast; ring
  split_ifs <;> omega

/-- The error path of the numpy frame write is real beyond noise level 1: a
4-sample signal at a 300 Hz rate has frame length 3, noise level 2 allows a
shift of 5, and the write slices output[5:4] (length 0) against a clipped
frame of length 2, which numpy rejects. -/
lemma placeFrameOk_fails_beyond_one :
    AudioPert.frameLen 300 = 3 ∧ (5 : ℤ) ≤ AudioPert.maxShiftSamples 300 2 ∧
    ¬ AudioPert.placeFrameOk 4 5 3 :=
  of_decide_eq_true (by with_unfolding_all rfl)

lemma jitterCore_tail_zero (signal : List ℚ) (L : ℚ) (sr : Nat) (r : RState)
    (j : Nat) (hL : 0 ≤ L)
    (hj : ((signal.length / AudioPert.frameLen sr) * AudioPert.frameLen sr : ℤ)
        + AudioPert.maxShiftSamples sr L ≤ (j : ℤ)) :
    ((AudioPert.jitterCore signal L sr r).1).getD j 0 = 0 := by
  have hm := maxShiftSamples_nonneg sr L hL
  rw [AudioPert.jitterCore, List.getD_eq_getElem?_getD]
  rw [foldl_getElem?_invariant _ _ j ?hstep _]
  · cases hrep : (List.replicate signal.length (0:ℚ))[j]? with
    | none => rfl
    | some v =>
        have := List.getElem?_replicate (a := (0:ℚ)) (n := signal.length) (m := j)
        rw [this] at hrep
        by_cases hjl : j < signal.length
        · rw [if_pos hjl] at hrep
          cases hrep
          rfl
        · rw [if_neg hjl] at hrep
          cases hrep
  case hstep =>
    intro acc i hi
    apply jitterStep_getElem? signal _ _ acc i j hm
    have hilt : i < signal.length / AudioPert.frameLen sr := List.mem_range.mp hi
    have hmul : (i + 1) * AudioPert.frameLen sr
        ≤ (signal.length / AudioPert.frameLen sr) * AudioPert.frameLen sr :=
      Nat.mul_le_mul_right _ hilt
    have hcast : ((i + 1) * AudioPert.frameLen sr : ℤ)
        ≤ ((signal.length / AudioPert.frameLen sr) * AudioPert.frameLen sr : ℤ) := by
      exact_mod_cast hmul
    push_cast at hcast ⊢
    linarith

/-- Claim C7, counterexample.  The claim says every output sample beyond the
last full-frame boundary is zero.  With a 3-sample signal at 200 Hz the
frame length is 2 and there is one full frame covering positions 0 and 1;
a drawn forward shift of 2 writes the frame into the trailing region, so
position 2 (beyond the full-frame boundary) is nonzero. -/
theorem c7_counterexample :
    AudioPert.frameLen 200 = 2 ∧ (3 : Nat) / AudioPert.frameLen 200 = 1 ∧
    (AudioPert.add_time_domain_jitter [1, 1, 1] 1 200 rngFour).1 = [0, 0, 1] ∧
    ((AudioPert.add_time_domain_jitter [1, 1, 1] 1 200 rngFour).1).getD 2 0 ≠ 0 :=
  of_decide_eq_true (by with_unfolding_all rfl)

/-- Claim C7, amended: for every input waveform and every noiseLevel in
[0, 1], the frame-jitter output buffer has exactly the input's length; for
every frame and every drawable shift the clipped frame's length equals the
target slice's length exactly, so the numpy slice add succeeds with no
wrap-around and no error (beyond noiseLevel 1 the maximum shift can exceed
the frame length and the source raises a broadcast ValueError, see
placeFrameOk); and every output sample at a position at least
numFrames * frameLen + maxShift is zero.  Samples between the last
full-frame boundary and that bound can be reached by a forward-shifted
frame, so the original claim's stronger zero region fails. -/
theorem c7_jitter_geometry (signal : List ℚ) (L : ℚ) (sr : Nat) (r : RState)
    (h0 : 0 ≤ L) (h1 : L ≤ 1) :
    (∀ i : Nat, i < signal.length / AudioPert.frameLen sr → ∀ r1 : RState,
      AudioPert.writeFrameLen signal.length
          ((i * AudioPert.frameLen sr : Nat)
            + (drawRandInt (-(AudioPert.maxShiftSamples sr L))
                (AudioPert.maxShiftSamples sr L + 1) r1).1)
          (((signal.drop (i * AudioPert.frameLen sr)).take (AudioPert.frameLen sr)).length)
        = AudioPert.writeSliceLen signal.length
          ((i * AudioPert.frameLen sr : Nat)
            + (drawRandInt (-(AudioPert.maxShiftSamples sr L))
                (AudioPert.maxShiftSamples sr L + 1) r1).1)
          (((signal.drop (i * AudioPert.frameLen sr)).take (AudioPert.frameLen sr)).length)) ∧
    ((AudioPert.add_time_domain_jitter signal L sr r).1).length = signal.length ∧
    ∀ j : Nat, ((signal.length / AudioPert.frameLen sr) * AudioPert.frameLen sr : ℤ)
        + AudioPert.maxShiftSamples sr L ≤ (j : ℤ) →
      ((AudioPert.add_time_domain_jitter signal L sr r).1).getD j 0 = 0 := by
  refine ⟨?_, ?_, ?_⟩
  · intro i hi r1
    rw [frame_take_length signal (AudioPert.frameLen sr) i hi]
    apply write_exact
    · exact maxShiftSamples_nonneg sr L h0
    · exact maxShift_le_frameLen sr L h0 h1
    · exact drawRandInt_ge _ r1 (maxShiftSamples_nonneg sr L h0)
    · exact drawRandInt_le _ r1 (maxShiftSamples_nonneg sr L h0)
    · have hmul : i * AudioPert.frameLen sr + AudioPert.frameLen sr
          ≤ (signal.length / AudioPert.frameLen sr) * AudioPert.frameLen sr := by
        calc i * AudioPert.frameLen sr + AudioPert.frameLen sr
            = (i + 1) * AudioPert.frameLen sr := by ring
          _ ≤ (signal.length / AudioPert.frameLen sr) * AudioPert.frameLen sr :=
            Nat.mul_le_mul_right _ (Nat.succ_le_of_lt hi)
      have hdiv : (signal.length / AudioPert.frameLen sr) * AudioPert.frameLen sr
          ≤ signal.length := Nat.div_mul_le_self _ _
      omega
  · rw [AudioPert.add_time_domain_jitter, normalizeIfPos_length, jitterCore_length]
  · intro j hj
    rw [AudioPert.add_time_domain_jitter]
    exact normalizeIfPos_getD_zero _ j (jitterCore_tail_zero signal L sr r j h0 hj)

/-- Witness for the amended claim C7 at a concrete 5-sample signal and
noise level 0: the first frame's write is exact, the output length is 5,
and the sample at position 4 (at the bound 2 * 2 + 0) is zero. -/
theorem c7_jitter_geometry_witness :
    AudioPert.writeFrameLen 5
        ((0 * AudioPert.frameLen 200 : Nat)
          + (drawRandInt (-(AudioPert.maxShiftSamples 200 0))
              (AudioPert.maxShiftSamples 200 0 + 1) rngTwo).1)
        ((([1, 1, 1, 1, 1] : List ℚ).drop (0 * AudioPert.frameLen 200)).take
          (AudioPert.frameLen 200)).length
      = AudioPert.writeSliceLen 5
        ((0 * AudioPert.frameLen 200 : Nat)
          + (drawRandInt (-(AudioPert.maxShiftSamples 200 0))
              (AudioPert.maxShiftSamples 200 0 + 1) rngTwo).1)
        ((([1, 1, 1, 1, 1] : List ℚ).drop (0 * AudioPert.frameLen 200)).take
          (AudioPert.frameLen 200)).length ∧
    ((AudioPert.add_time_domain_jitter [1, 1, 1, 1, 1] 0 200 rngTwo).1).length = 5 ∧
    ((AudioPert.add_time_domain_jitter [1, 1, 1, 1, 1] 0 200 rngTwo).1).getD 4 0 = 0 :=
  ⟨(c7_jitter_geometry [1, 1, 1, 1, 1] 0 200 rngTwo (le_refl 0)
        (of_decide_eq_true (by with_unfolding_all rfl))).1 0
      (of_decide_eq_true (by with_unfolding_all rfl)) rngTwo,
   (c7_jitter_geometry [1, 1, 1, 1, 1] 0 200 rngTwo (le_refl 0)
        (of_decide_eq_true (by with_unfolding_all rfl))).2.1,
   (c7_jitter_geometry [1, 1, 1, 1, 1] 0 200 rngTwo (le_refl 0)
        (of_decide_eq_true (by with_unfolding_all rfl))).2.2 4
     (of_decide_eq_true (by with_unfolding_all rfl))⟩

/-! ### Pitch range preservation of the preserve-range randomizer -/

lemma randomizePitchAt_sets_range (lo hi : ℤ) (std L : ℚ) (pres : Bool)
    (acc : List Note × RState) (idx : Nat) (hlohi : lo ≤ hi) :
    pitchOkAt lo hi (MusConstPert.randomizePitchAt lo hi std L pres acc idx).1 idx := by
  obtain ⟨notes, r⟩ := acc
  intro nt hnt
  simp only [MusConstPert.randomizePitchAt] at hnt
  cases hx : notes[idx]? with
  | none => simp only [hx] at hnt; cases hnt
  | some note =>
      simp only [hx] at hnt
      have hlt : idx < notes.length := by
        rcases List.getElem?_eq_some.mp hx with ⟨hh, _⟩
        exact hh
      cases pres with
      | true =>
          simp only [if_pos] at hnt
          rw [List.getElem?_set_self hlt] at hnt
          have := Option.some.inj hnt
          subst this
          exact ⟨le_max_left _ _, max_le hlohi (min_le_left _ _)⟩
      | false =>
          simp only [Bool.false_eq_true, if_false] at hnt
          rw [List.getElem?_set_self hlt] at hnt
          have := Option.some.inj hnt
          subst this
          simp only [drawRandInt, rnext]
          have hM : (0:ℤ) < hi + 1 - lo := by omega
          have h1 := Int.emod_nonneg ((r.stream r.pos : ℤ)) (ne_of_gt hM)
          have h2 := Int.emod_lt_of_pos ((r.stream r.pos : ℤ)) hM
          constructor <;> (dsimp only; omega)

lemma randomizePitchAt_okAt (lo hi : ℤ) (std L : ℚ) (pres : Bool)
    (acc : List Note × RState) (idx j : Nat) (hlohi : lo ≤ hi)
    (h : pitchOkAt lo hi acc.1 j) :
    pitchOkAt lo hi (MusConstPert.randomizePitchAt lo hi std L pres acc idx).1 j := by
  by_cases hij : idx = j
  · subst hij
    exact randomizePitchAt_sets_range lo hi std L pres acc idx hlohi
  · obtain ⟨notes, r⟩ := acc
    intro nt hnt
    simp only [MusConstPert.randomizePitchAt] at hnt
    cases hx : notes[idx]? with
    | none => simp only [hx] at hnt; exact h nt hnt
    | some note =>
        simp only [hx] at hnt
        cases pres with
        | true =>
            simp only [if_pos] at hnt
            rw [List.getElem?_set_ne hij] at hnt
            exact h nt hnt
        | false =>
            simp only [Bool.false_eq_true, if_false] at hnt
            rw [List.getElem?_set_ne hij] at hnt
            exact h nt hnt

lemma timingAt_okAt (lo hi : ℤ) (w : ℚ) (acc : List Note × RState) (idx j : Nat)
    (h : pitchOkAt lo hi acc.1 j) :
    pitchOkAt lo hi (MusConstPert.timingAt w acc idx).1 j := by
  obtain ⟨notes, r⟩ := acc
  intro nt hnt
  simp only [MusConstPert.timingAt] at hnt
  cases hx : notes[idx]? with
  | none => simp only [hx] at hnt; exact h nt hnt
  | some note =>
      simp only [hx] at hnt
      by_cases hij : idx = j
      · subst hij
        have hlt : idx < notes.length := by
          rcases List.getElem?_eq_some.mp hx with ⟨hh, _⟩
          exact hh
        rw [List.getElem?_set_self hlt] at hnt
        have := Option.some.inj hnt
        subst this
        exact h note hx
      · rw [List.getElem?_set_ne hij] at hnt
        exact h nt hnt

lemma durationAt_okAt (lo hi : ℤ) (w : ℚ) (acc : List Note × RState) (idx j : Nat)
    (h : pitchOkAt lo hi acc.1 j) :
    pitchOkAt lo hi (MusConstPert.durationAt w acc idx).1 j := by
  obtain ⟨notes, r⟩ := acc
  intro nt hnt
  simp only [MusConstPert.durationAt] at hnt
  cases hx : notes[idx]? with
  | none => simp only [hx] at hnt; exact h nt hnt
  | some note =>
      simp only [hx] at hnt
      by_cases hij : idx = j
      · subst hij
        have hlt : idx < notes.length := by
          rcases List.getElem?_eq_some.mp hx with ⟨hh, _⟩
          exact hh
        rw [List.getElem?_set_self hlt] at hnt
        have := Option.some.inj hnt
        subst this
        exact h note hx
      · rw [List.getElem?_set_ne hij] at hnt
        exact h nt hnt

lemma pitchLoop_okAt (lo hi : ℤ) (std L : ℚ) (pres : Bool) (hlohi : lo ≤ hi) :
    ∀ (l : List Nat) (acc : List Note × RState) (j : Nat), j ∈ l →
      pitchOkAt lo hi
        (l.foldl (MusConstPert.randomizePitchAt lo hi std L pres) acc).1 j := by
  intro l
  induction l with
  | nil => intro acc j hj; cases hj
  | cons i rest ih =>
      intro acc j hj
      rw [List.foldl_cons]
      rcases List.mem_cons.mp hj with heq | hmem
      · subst heq
        exact foldl_preserve
          (fun a b hp => randomizePitchAt_okAt lo hi std L pres a b j hlohi hp) rest _
          (randomizePitchAt_sets_range lo hi std L pres acc j hlohi)
      · exact ih _ j hmem

lemma randomizePitchAt_length (lo hi : ℤ) (std L : ℚ) (pres : Bool)
    (acc : List Note × RState) (idx : Nat) :
    (MusConstPert.randomizePitchAt lo hi std L pres acc idx).1.length = acc.1.length := by
  obtain ⟨notes, r⟩ := acc
  simp only [MusConstPert.randomizePitchAt]
  cases hx : notes[idx]? with
  | none => rfl
  | some note => cases pres <;> simp [List.length_set]

lemma pitchLoop_length (lo hi : ℤ) (std L : ℚ) (pres : Bool)
    (l : List Nat) (acc : List Note × RState) :
    (l.foldl (MusConstPert.randomizePitchAt lo hi std L pres) acc).1.length
      = acc.1.length := by
  refine foldl_preserve
    (P := fun a : List Note × RState => a.1.length = acc.1.length) ?_ l acc rfl
  intro a b hp
  rw [randomizePitchAt_length]
  exact hp

lemma full_coverage (l : List Nat) (n : Nat) (hlen : l.length = n) (hnd : l.Nodup)
    (hlt : ∀ i ∈ l, i < n) : ∀ j, j < n → j ∈ l := by
  intro j hj
  have hsub : l.toFinset ⊆ Finset.range n := by
    intro x hx
    exact Finset.mem_range.mpr (hlt x (List.mem_toFinset.mp hx))
  have hcard : (Finset.range n).card ≤ l.toFinset.card := by
    rw [Finset.card_range, List.toFinset_card_of_nodup hnd, hlen]
  have heq := Finset.eq_of_subset_of_card_le hsub hcard
  have : j ∈ l.toFinset := by rw [heq]; exact Finset.mem_range.mpr hj
  exact List.mem_toFinset.mp this

lemma all_pitchIn_of_okAt (lo hi : ℤ) (notes : List Note)
    (h : ∀ j, j < notes.length → pitchOkAt lo hi notes j) :
    ∀ nt ∈ notes, pitchIn lo hi nt := by
  intro nt hnt
  obtain ⟨j, hjlt, hget⟩ := List.mem_iff_getElem.mp hnt
  exact h j hjlt nt (by rw [List.getElem?_eq_getElem hjlt, hget])

lemma timingAt_pitchIn_all (lo hi : ℤ) (w : ℚ) (acc : List Note × RState) (idx : Nat)
    (h : ∀ nt ∈ acc.1, pitchIn lo hi nt) :
    ∀ nt ∈ (MusConstPert.timingAt w acc idx).1, pitchIn lo hi nt := by
  obtain ⟨notes, r⟩ := acc
  intro nt hnt
  simp only [MusConstPert.timingAt] at hnt
  cases hx : notes[idx]? with
  | none => simp only [hx] at hnt; exact h nt hnt
  | some note =>
      simp only [hx] at hnt
      rcases List.mem_or_eq_of_mem_set hnt with hmem | heq
      · exact h nt hmem
      · subst heq
        exact h note (List.getElem?_mem hx)

lemma durationAt_pitchIn_all (lo hi : ℤ) (w : ℚ) (acc : List Note × RState) (idx : Nat)
    (h : ∀ nt ∈ acc.1, pitchIn lo hi nt) :
    ∀ nt ∈ (MusConstPert.durationAt w acc idx).1, pitchIn lo hi nt := by
  obtain ⟨notes, r⟩ := acc
  intro nt hnt
  simp only [MusConstPert.durationAt] at hnt
  cases hx : notes[idx]? with
  | none => simp only [hx] at hnt; exact h nt hnt
  | some note =>
      simp only [hx] at hnt
      rcases List.mem_or_eq_of_mem_set hnt with hmem | heq
      · exact h nt hmem
      · subst heq
        exact h note (List.getElem?_mem hx)

lemma MusConst_instrument_pitchRange (inst : Instrument) (r : RState)
    (out : Instrument × RState)
    (hlohi : (get_pitch_range inst 12).1 ≤ (get_pitch_range inst 12).2)
    (h : MusConstPert.randomizeInstrument inst 1 true r = Except.ok out) :
    ∀ nt ∈ out.1.notes,
      pitchIn (get_pitch_range inst 12).1 (get_pitch_range inst 12).2 nt := by
  rw [MusConstPert.randomizeInstrument] at h
  by_cases hn : inst.notes.length = 0
  · rw [if_pos hn] at h
    cases h
    intro nt hnt
    rw [List.length_eq_zero] at hn
    rw [hn] at hnt
    cases hnt
  · rw [if_neg hn] at h
    cases hsel : MusConstPert.selectIndices inst.notes.length 1 r with
    | error e => rw [hsel] at h; cases h
    | ok sel =>
        rw [hsel] at h
        cases h
        obtain ⟨⟨hiplen, hipnd, hiplt⟩, _, _⟩ := selectIndices_spec _ _ _ _ hsel
        have hk : (pyInt ((1 : ℚ) * inst.notes.length)).toNat = inst.notes.length := by
          rw [one_mul, pyInt_natCast]
          exact Int.toNat_natCast _
        rw [hk] at hiplen
        have hcov := full_coverage sel.1.1 inst.notes.length hiplen hipnd hiplt
        have hall1 : ∀ nt ∈ (sel.1.1.foldl
            (MusConstPert.randomizePitchAt (get_pitch_range inst 12).1
              (get_pitch_range inst 12).2
              (npStd (inst.notes.map fun nt => (nt.pitch : ℚ))) 1 true)
            (inst.notes, sel.2)).1,
            pitchIn (get_pitch_range inst 12).1 (get_pitch_range inst 12).2 nt := by
          apply all_pitchIn_of_okAt
          intro j hjlt
          rw [pitchLoop_length] at hjlt
          exact pitchLoop_okAt _ _ _ _ _ hlohi sel.1.1 (inst.notes, sel.2) j
            (hcov j hjlt)
        exact foldl_preserve (fun a b hp => durationAt_pitchIn_all _ _ _ a b hp) _ _
          (foldl_preserve (fun a b hp => timingAt_pitchIn_all _ _ _ a b hp) _ _ hall1)

lemma MusConst_instruments_pitchRange :
    ∀ (insts : List Instrument) (r : RState) (out : List Instrument × RState),
      (∀ inst ∈ insts, (get_pitch_range inst 12).1 ≤ (get_pitch_range inst 12).2) →
      MusConstPert.randomizeInstruments insts 1 true r = Except.ok out →
      List.Forall₂ (fun inst inst1 => ∀ nt ∈ inst1.notes,
        pitchIn (get_pitch_range inst 12).1 (get_pitch_range inst 12).2 nt)
        insts out.1 := by
  intro insts
  induction insts with
  | nil =>
      intro r out _ h
      cases h
      exact List.Forall₂.nil
  | cons i rest ih =>
      intro r out hr h
      rw [MusConstPert.randomizeInstruments] at h
      cases h1 : MusConstPert.randomizeInstrument i 1 true r with
      | error e => rw [h1] at h; cases h
      | ok p =>
          simp only [h1] at h
          cases h2 : MusConstPert.randomizeInstruments rest 1 true p.2 with
          | error e => rw [h2] at h; cases h
          | ok q =>
              rw [h2] at h
              cases h
              exact List.Forall₂.cons
                (MusConst_instrument_pitchRange i r p
                  (hr i (List.mem_cons_self i rest)) h1)
                (ih p.2 q (fun inst hm => hr inst (List.mem_cons_of_mem i hm)) h2)

/-- Claim C5, counterexample.  On a track whose only pitch is 0, the claimed
clamp interval [max(21, minPitch - 12), min(108, maxPitch + 12)] is the
empty interval [21, 12]; the randomizer assigns pitch 21, which cannot lie
in that interval, so the claim as stated fails for such a Score. -/
theorem c5_counterexample :
    (MusConstPert.randomize_midi ⟨[⟨[⟨0, 0, 1⟩]⟩]⟩ 1 true rngZero).map Prod.fst
        = Except.ok ⟨[⟨[⟨21, 0, 1 / 2⟩]⟩]⟩ ∧
    get_pitch_range ⟨[⟨0, 0, 1⟩]⟩ 12 = (21, 12) ∧
    ¬ ((21 : ℤ) ≤ 12) :=
  of_decide_eq_true (by with_unfolding_all rfl)

/-- Claim C5, amended: with preserveRange active the new pitch is the normal
draw centred at the original pitch with scale pitch_std * noiseLevel,
rounded and clamped; whenever the track's padded pitch range is nonempty
(lower bound at most upper bound) every pitch assigned by the pitch loop
lies in that range, and at noiseLevel 1.0 every note of every returned
track lies within the corresponding original track's PitchRange. -/
theorem c5_preserve_range :
    (∀ (lo hi : ℤ) (std L : ℚ) (notes : List Note) (r : RState) (idx : Nat)
        (nt : Note), lo ≤ hi →
        ((MusConstPert.randomizePitchAt lo hi std L true (notes, r) idx).1)[idx]?
          = some nt →
        lo ≤ nt.pitch ∧ nt.pitch ≤ hi) ∧
    (∀ (pm : PrettyMIDI) (r : RState) (out : PrettyMIDI × RState),
        (∀ inst ∈ pm.instruments,
          (get_pitch_range inst 12).1 ≤ (get_pitch_range inst 12).2) →
        MusConstPert.randomize_midi pm 1 true r = Except.ok out →
        List.Forall₂ (fun inst inst1 => ∀ nt ∈ inst1.notes,
            (get_pitch_range inst 12).1 ≤ nt.pitch ∧
            nt.pitch ≤ (get_pitch_range inst 12).2)
          pm.instruments out.1.instruments) := by
  constructor
  · intro lo hi std L notes r idx nt hlohi hnt
    exact randomizePitchAt_sets_range lo hi std L true (notes, r) idx hlohi nt hnt
  · intro pm r out hr h
    rw [MusConstPert.randomize_midi] at h
    cases h1 : MusConstPert.randomizeInstruments pm.instruments 1 true r with
    | error e => rw [h1] at h; cases h
    | ok p =>
        rw [h1] at h
        cases h
        exact MusConst_instruments_pitchRange pm.instruments r p hr h1

/-- Witness for the amended claim C5 at a concrete pitch assignment and a
concrete full randomize call at noiseLevel 1. -/
theorem c5_preserve_range_witness :
    ((21 : ℤ) ≤ (60 : ℤ) ∧ (60 : ℤ) ≤ 108) ∧
    List.Forall₂ (fun inst inst1 => ∀ nt ∈ inst1.notes,
        (get_pitch_range inst 12).1 ≤ nt.pitch ∧
        nt.pitch ≤ (get_pitch_range inst 12).2)
      (⟨[⟨[⟨60, 0, 1⟩]⟩]⟩ : PrettyMIDI).instruments
      (⟨[⟨[⟨60, 0, 1 / 2⟩]⟩]⟩ : PrettyMIDI).instruments :=
  ⟨c5_preserve_range.1 21 108 0 0 [⟨60, 0, 1⟩] rngZero 0 ⟨60, 0, 1⟩
      (of_decide_eq_true (by with_unfolding_all rfl))
      (by with_unfolding_all rfl),
   c5_preserve_range.2 ⟨[⟨[⟨60, 0, 1⟩]⟩]⟩ rngZero
      (⟨[⟨[⟨60, 0, 1 / 2⟩]⟩]⟩, ⟨rngZero.stream, 6⟩)
      (of_decide_eq_true (by with_unfolding_all rfl))
      (by with_unfolding_all rfl)⟩

/-! ### The all-zero input of the SNR injector -/

lemma drawList_length : ∀ (n : Nat) (r : RState), ((drawList n r).1).length = n := by
  intro n
  induction n with
  | zero => intro r; rfl
  | succ n ih => intro r; simp only [drawList, List.length_cons, ih]

lemma calculate_power_of_zeros (xs : List ℚ) (h : ∀ x ∈ xs, x = 0) :
    NoiseAdder.calculate_power xs = 0 := by
  unfold NoiseAdder.calculate_power npMean
  rw [List.sum_eq_zero, zero_div]
  intro y hy
  obtain ⟨x, hx, rfl⟩ := List.mem_map.mp hy
  rw [h x hx]
  ring

lemma peakAbs_of_zeros (xs : List ℚ) (h : ∀ x ∈ xs, x = 0) : peakAbs xs = 0 := by
  induction xs with
  | nil => rfl
  | cons x xs ih =>
      rw [peakAbs_cons, h x (List.mem_cons_self x xs), abs_zero,
        ih (fun y hy => h y (List.mem_cons_of_mem x hy)), max_self]

lemma zipWith_add_map_mul_zero :
    ∀ (xs ys : List ℚ), xs.length ≤ ys.length →
      List.zipWith (· + ·) xs (ys.map (· * 0)) = xs := by
  intro xs
  induction xs with
  | nil => intro ys _; rfl
  | cons x xs ih =>
      intro ys h
      cases ys with
      | nil => simp at h
      | cons y ys =>
          rw [List.map_cons, List.zipWith_cons_cons, mul_zero, add_zero,
            ih ys (by simpa using h)]

/-- Claim C10: on an all-zero input signal the SNR injector returns the
signal unchanged (an all-zero output of the same length) for any target SNR,
provided the generated noise sequence has positive mean-square power: the
desired noise power is zero, the scaling factor is zero, and no rescaling
occurs. -/
theorem c10_zero_signal (signal : List ℚ) (snr : ℚ) (r : RState)
    (hz : ∀ x ∈ signal, x = 0)
    (hn : 0 < NoiseAdder.calculate_power (NoiseAdder.pinkNoise signal.length r).1) :
    (NoiseAdder.add_noise_with_snr signal snr r).1 = signal ∧
    ((NoiseAdder.add_noise_with_snr signal snr r).1).length = signal.length ∧
    ∀ x ∈ (NoiseAdder.add_noise_with_snr signal snr r).1, x = 0 := by
  have hsf : NoiseAdder.scalingFactor signal (NoiseAdder.pinkNoise signal.length r).1 snr = 0 := by
    rw [NoiseAdder.scalingFactor, NoiseAdder.desiredNoisePower,
      calculate_power_of_zeros signal hz, zero_div, zero_div,
      qSqrt_of_nonpos _ (le_refl 0)]
  have hsum : NoiseAdder.noisySum signal (NoiseAdder.pinkNoise signal.length r).1 snr
      = signal := by
    rw [NoiseAdder.noisySum, NoiseAdder.scaledNoise, hsf]
    exact zipWith_add_map_mul_zero signal _
      (le_of_eq (by rw [NoiseAdder.pinkNoise, drawList_length]))
  have hres : (NoiseAdder.add_noise_with_snr signal snr r).1 = signal := by
    rw [NoiseAdder.add_noise_with_snr]
    simp only [NoiseAdder.normalizeIfOver1, hsum, peakAbs_of_zeros signal hz]
    rw [if_neg (by norm_num)]
  exact ⟨hres, by rw [hres], by rw [hres]; exact hz⟩

/-- Witness for claim C10 at a concrete silent signal. -/
theorem c10_zero_signal_witness :
    (NoiseAdder.add_noise_with_snr [0, 0] 17 rngTwo).1 = [0, 0] :=
  (c10_zero_signal [0, 0] 17 rngTwo
    (of_decide_eq_true (by with_unfolding_all rfl))
    (of_decide_eq_true (by with_unfolding_all rfl))).1

/-- Witness for the amended claim C3 at a concrete score and noise level. -/
theorem c3_caller_copy_protects_original_witness :
    (MusicalPertComb.process_level ⟨[⟨[⟨60, 0, 1⟩]⟩]⟩ 1 rngZero).1
        = ⟨[⟨[⟨60, 0, 1⟩]⟩]⟩ ∧
    (MusicalPertComb.process_level ⟨[⟨[⟨60, 0, 1⟩]⟩]⟩ 1 rngZero).2
        = MusicalPertComb.randomize_midi ⟨[⟨[⟨60, 0, 1⟩]⟩]⟩ 1 rngZero :=
  ⟨(c3_caller_copy_protects_original ⟨[⟨[⟨60, 0, 1⟩]⟩]⟩ 1 rngZero).1,
   (c3_caller_copy_protects_original ⟨[⟨[⟨60, 0, 1⟩]⟩]⟩ 1 rngZero).2
     (of_decide_eq_true (by with_unfolding_all rfl))⟩

end LoM
